import Mathlib

/-!
prettierzap: line parser, filter and renderer

A shallow embedding of `prettierzap/beauty.go` and `prettierzap/parsedJSON.go`.

* A Go `string` / `[]byte` is a list of byte values (`Str`).
* A Go `map[string]string` is an association list with distinct keys; the order of the
  list stands for the (unspecified) iteration order of the Go map.
* A Go call that can abort (index or slice out of range, nil dereference) returns
  `Outcome.panic`; a loop is run with explicit fuel and returns `Outcome.outOfFuel`
  when the fuel is used up.
-/

namespace prettierzap

/-- A byte string: Go `string` and `[]byte`. -/
abbrev Str := List Nat

/-- The bytes of an ASCII literal. -/
def lit (s : String) : Str := s.toList.map Char.toNat

/-- What a Go call does: it returns, it aborts with a run-time panic, or (for a
loop run with fuel) it has not finished when the fuel is used up. -/
inductive Outcome (α : Type) where
  | ok (a : α)
  | panic
  | outOfFuel
  deriving DecidableEq, Repr

/-- Sequencing of calls. -/
def Outcome.bind {α β : Type} (x : Outcome α) (f : α → Outcome β) : Outcome β :=
  match x with
  | .ok a => f a
  | .panic => .panic
  | .outOfFuel => .outOfFuel

/-! ## Standard library functions used by the package -/

/-- UTF-8 encodings of the code points for which Go's `unicode.IsSpace` holds:
TAB, LF, VT, FF, CR, SPACE, U+0085, U+00A0, U+1680, U+2000..U+200A, U+2028, U+2029,
U+202F, U+205F, U+3000. -/
def spaceEncodings : List Str :=
  [[9], [10], [11], [12], [13], [32], [194, 133], [194, 160], [225, 154, 128],
   [226, 128, 128], [226, 128, 129], [226, 128, 130], [226, 128, 131], [226, 128, 132],
   [226, 128, 133], [226, 128, 134], [226, 128, 135], [226, 128, 136], [226, 128, 137],
   [226, 128, 138], [226, 128, 168], [226, 128, 169], [226, 128, 175], [226, 129, 159],
   [227, 128, 128]]

/-- Drop leading white space: as long as the string starts with the encoding of a
space code point, remove that encoding. The fuel bounds the number of removals. -/
def trimLeftSpace : Nat → Str → Str
  | 0, s => s
  | fuel + 1, s =>
    match spaceEncodings.find? (fun e => e.isPrefixOf s) with
    | some e => trimLeftSpace fuel (s.drop e.length)
    | none => s

/-- Drop trailing white space: as long as the string ends with the encoding of a
space code point, remove that encoding. -/
def trimRightSpace : Nat → Str → Str
  | 0, s => s
  | fuel + 1, s =>
    match spaceEncodings.find? (fun e => e.isSuffixOf s) with
    | some e => trimRightSpace fuel (s.take (s.length - e.length))
    | none => s

/-- Go `strings.TrimSpace`: the string without its leading and trailing white space
(as defined by Unicode). -/
def TrimSpace (s : Str) : Str :=
  let t := trimLeftSpace s.length s
  trimRightSpace t.length t

/-- Go `strings.Replace(s, old, new, -1)` for a non-empty `old`: every non-overlapping
occurrence of `old`, found from left to right, is replaced by `new`. The first argument
counts the bytes of an occurrence that are still to be skipped. -/
def replaceFrom (old new : Str) : Nat → Str → Str
  | _, [] => []
  | skip + 1, _ :: cs => replaceFrom old new skip cs
  | 0, c :: cs =>
    if old.isPrefixOf (c :: cs) then new ++ replaceFrom old new (old.length - 1) cs
    else c :: replaceFrom old new 0 cs

/-- Go `strings.Replace(s, old, new, -1)` (non-empty `old`). -/
def Replace (s old new : Str) : Str := replaceFrom old new 0 s

/-- Go `strings.Contains(s, substr)`. -/
def Contains (s substr : Str) : Bool := s.tails.any (fun t => substr.isPrefixOf t)

/-- Go `a < b` on strings: byte-wise lexicographic order. -/
def strLess : Str → Str → Bool
  | [], [] => false
  | [], _ :: _ => true
  | _ :: _, [] => false
  | a :: as, b :: bs => if a < b then true else if b < a then false else strLess as bs

/-- Go `strings.Split(s, ".")[0]`: the part of `s` before its first `.` (all of `s` when
it has none). -/
def splitFirstDot (s : Str) : Str := s.takeWhile (fun b => b != 46)

/-- The two kinds of `strconv.NumError`. -/
inductive NumErrorKind where
  | ErrSyntax
  | ErrRange
  deriving DecidableEq, Repr

/-- Go `*strconv.NumError` of `ParseInt`: the input and the kind of failure. -/
structure NumError where
  Num : Str
  Err : NumErrorKind
  deriving DecidableEq, Repr

/-- The value of a string of decimal digits. -/
def digitsValue (ds : Str) : Nat := ds.foldl (fun n c => 10 * n + (c - 48)) 0

/-- The loop of Go `strconv.ParseUint(s, 10, 64)` over the bytes of `s`, with `n` the value
read so far: the returned value and the kind of the returned error (`none` for nil). A
byte that is not a decimal digit gives 0 and `ErrSyntax`; when the next digit would take
the value out of the range of an unsigned 64-bit integer the loop returns at once, with
the largest such integer and `ErrRange`. -/
def parseUintLoop : Nat → Str → Nat × Option NumErrorKind
  | n, [] => (n, none)
  | n, c :: rest =>
    if 48 ≤ c ∧ c ≤ 57 then
      if 1844674407370955162 ≤ n then (2 ^ 64 - 1, some .ErrRange)
      else
        let n1 := (n * 10 + (c - 48)) % 2 ^ 64
        if n1 < n * 10 ∨ 2 ^ 64 - 1 < n1 then (2 ^ 64 - 1, some .ErrRange)
        else parseUintLoop n1 rest
    else (0, some .ErrSyntax)

/-- Go `strconv.ParseUint(s, 10, 64)`: the empty string is a syntax error. -/
def ParseUint (s : Str) : Nat × Option NumErrorKind :=
  if s = [] then (0, some .ErrSyntax) else parseUintLoop 0 s

/-- The digits of `strconv.ParseInt(s0, 10, 64)`, after the sign: `ParseUint`, whose
error is returned unless it is `ErrRange`, and the check of the range. -/
def parseDigits (s0 : Str) (neg : Bool) (ds : Str) : Except NumError Int :=
  let r := ParseUint ds
  if r.2 = some .ErrSyntax then .error ⟨s0, .ErrSyntax⟩
  else if !neg && decide (2 ^ 63 ≤ r.1) then .error ⟨s0, .ErrRange⟩
  else if neg && decide (2 ^ 63 < r.1) then .error ⟨s0, .ErrRange⟩
  else .ok (if neg then -(r.1 : Int) else (r.1 : Int))

/-- Go `strconv.ParseInt(s, 10, 64)`: an optional sign followed by one or more decimal
digits, with a value in the range of a signed 64-bit integer. -/
def ParseInt (s : Str) : Except NumError Int :=
  match s with
  | [] => .error ⟨s, .ErrSyntax⟩
  | c :: rest =>
    if c = 43 then parseDigits s false rest
    else if c = 45 then parseDigits s true rest
    else parseDigits s false s

/-- Go `fmt.Sprintf("%v", n)` for an integer: its decimal rendering. -/
def Itoa (n : Int) : Str :=
  match n with
  | Int.ofNat m => lit (Nat.repr m)
  | Int.negSucc m => 45 :: lit (Nat.repr (m + 1))

/-! ## parsedJSON.go -/

/-- The Go type `parsedLog` (`map[string]string`). -/
abbrev parsedLog := List (Str × Str)

/-- Go `v, ok := pl[k]`. -/
def parsedLog.get? (pl : parsedLog) (k : Str) : Option Str :=
  match pl with
  | [] => none
  | (k1, v1) :: rest => if k1 = k then some v1 else parsedLog.get? rest k

/-- Go `pl[k]`: the zero value (the empty string) for an absent key. -/
def parsedLog.get (pl : parsedLog) (k : Str) : Str := (parsedLog.get? pl k).getD []

/-- Go `pl[k] = v`: the value of an existing key is overwritten, a new key is added. -/
def parsedLog.set (pl : parsedLog) (k v : Str) : parsedLog :=
  match pl with
  | [] => [(k, v)]
  | (k1, v1) :: rest => if k1 = k then (k1, v) :: rest else (k1, v1) :: parsedLog.set rest k v

/-- The level of the log. -/
def parsedLog.GetLevel (pl : parsedLog) : Str := parsedLog.get pl (lit "level")

/-- The timestamp of the log. -/
def parsedLog.GetTimestamp (pl : parsedLog) : Str := parsedLog.get pl (lit "ts")

/-- The caller field of the log. -/
def parsedLog.GetCaller (pl : parsedLog) : Str := parsedLog.get pl (lit "caller")

/-- The message of the log: the value of the first of the keys `msg`, `message` that is
present. -/
def parsedLog.GetMsg (pl : parsedLog) : Str :=
  match parsedLog.get? pl (lit "msg") with
  | some v => v
  | none =>
    match parsedLog.get? pl (lit "message") with
    | some v => v
    | none => []

/-- The names of the fields that are not meta data. -/
def wellKnown : List Str := [lit "level", lit "ts", lit "caller", lit "msg", lit "message"]

/-- The meta data of the log: every pair whose key is none of `level`, `ts`, `caller`,
`msg`, `message`, copied into a new map. -/
def parsedLog.GetMeta (pl : parsedLog) : parsedLog :=
  pl.foldl (fun m p => if p.1 ∈ wellKnown then m else parsedLog.set m p.1 (parsedLog.get pl p.1)) []

/-! ## beauty.go: the line parser -/

/-- Search the given data for a key, which ends with a `"`: the loop of `findKey` from
index `i` on, with `k` the bytes collected so far. -/
def findKeyLoop (k : Str) (i : Nat) : Str → Str × Nat
  | [] => ([], 0)
  | b :: rest => if b = 34 then (k, i) else findKeyLoop (k ++ [b]) (i + 1) rest

/-- Go `findKey`: the bytes before the first `"` and the index of that `"`; the empty
string and 0 when there is no `"`. -/
def findKey (data : Str) : Str × Nat := findKeyLoop [] 0 data

/-- Search the given data for a value, which ends with a `,` or a `}`: the loop of
`findValue` from index `i` on, with `v` the bytes collected so far. -/
def findValueLoop (v : Str) (i : Nat) : Str → Str × Nat
  | [] => ([], 0)
  | b :: rest => if b = 44 ∨ b = 125 then (v, i) else findValueLoop (v ++ [b]) (i + 1) rest

/-- Go `findValue`: the bytes before the first `,` or `}` and the index of that byte; the
empty string and 0 when there is none. -/
def findValue (data : Str) : Str × Nat := findValueLoop [] 0 data

/-- The variables of `ParseJSONByteArray` that the brace detection loop changes. -/
structure Scan where
  hasStart : Bool
  hasEnd : Bool
  offset : Nat
  byteLength : Nat
  deriving DecidableEq, Repr

/-- How an iteration of the detection loop ends: with `continue` or by reaching the end
of the body (`next`), or with `break` (`stop`). -/
inductive Flow where
  | next
  | stop
  deriving DecidableEq, Repr

/-- The first `switch` of the detection loop (run when `hasStart` is false): `true` when
it ends the iteration with `continue`. -/
def frontStep (jsonByte : Str) (i : Nat) (s : Scan) : Outcome (Bool × Scan) :=
  if s.hasStart then .ok (false, s)
  else
    match jsonByte[i]? with
    | none => .panic
    | some b =>
      if b = 32 ∨ b = 9 then .ok (true, s)
      else if b = 123 then .ok (false, { s with hasStart := true, offset := i })
      else .ok (false, { s with hasStart := false })

/-- The second `switch` of the detection loop (run when `hasEnd` is false): `true` when
it ends the iteration with `continue`. -/
def backStep (jsonByte : Str) (i : Nat) (s : Scan) : Outcome (Bool × Scan) :=
  if s.hasEnd then .ok (false, s)
  else if s.byteLength < i + 1 then .panic
  else
    match jsonByte[s.byteLength - i - 1]? with
    | none => .panic
    | some b =>
      if b = 32 ∨ b = 9 then .ok (true, s)
      else if b = 125 then .ok (false, { s with hasEnd := true, byteLength := s.byteLength - i - 1 })
      else .ok (false, { s with hasEnd := false })

/-- The body of the detection loop at index `i`. -/
def detectBody (jsonByte : Str) (i : Nat) (s : Scan) : Outcome (Flow × Scan) :=
  (frontStep jsonByte i s).bind fun r1 =>
    if r1.1 then .ok (.next, r1.2)
    else
      (backStep jsonByte i r1.2).bind fun r2 =>
        if r2.1 then .ok (.next, r2.2)
        else if (r2.2.hasEnd && r2.2.hasStart)
            || decide ((i : Int) ≥ (r2.2.byteLength : Int) - (i : Int) - 1) then
          .ok (.stop, r2.2)
        else .ok (.next, r2.2)

/-- The detection loop `for i := 0; i < byteLength; i++`, from index `i` on. -/
def detectLoop (jsonByte : Str) : Nat → Nat → Scan → Outcome Scan
  | 0, _, _ => .outOfFuel
  | fuel + 1, i, s =>
    if i < s.byteLength then
      (detectBody jsonByte i s).bind fun r =>
        match r.1 with
        | .stop => .ok r.2
        | .next => detectLoop jsonByte fuel (i + 1) r.2
    else .ok s

/-- The state in which `ParseJSONByteArray` leaves the detection loop. -/
def detect (jsonByte : Str) : Outcome Scan :=
  detectLoop jsonByte (jsonByte.length + 1) 0
    { hasStart := false, hasEnd := false, offset := 0, byteLength := jsonByte.length }

/-- The key/value loop `for offset < byteLength` of `ParseJSONByteArray`. -/
def kvLoop (jsonByte : Str) (byteLength : Nat) : Nat → Nat → Str → parsedLog → Outcome parsedLog
  | 0, _, _, _ => .outOfFuel
  | fuel + 1, offset, foundKey, pl =>
    if offset < byteLength then
      match jsonByte[offset]? with
      | none => .panic
      | some b =>
        if b = 34 then
          if jsonByte.length < offset + 1 then .panic
          else
            let r := findKey (jsonByte.drop (offset + 1))
            kvLoop jsonByte byteLength fuel (offset + (r.2 + 1) + 1) (TrimSpace r.1) pl
        else if b = 58 then
          if jsonByte.length < offset + 1 then .panic
          else
            let r := findValue (jsonByte.drop (offset + 1))
            kvLoop jsonByte byteLength fuel (offset + (r.2 + 1) + 1) foundKey
              (parsedLog.set pl foundKey (TrimSpace r.1))
        else kvLoop jsonByte byteLength fuel (offset + 0 + 1) foundKey pl
    else .ok pl

/-- The record that `ParseJSONByteArray` makes of a line that is not an object; `now` is
`time.Now().Unix()`. -/
def fallbackLog (now : Int) (jsonByte : Str) : parsedLog :=
  parsedLog.set (parsedLog.set (parsedLog.set (parsedLog.set [] (lit "level") (lit "\"debug\""))
    (lit "ts") (Itoa now)) (lit "caller") (lit "\"user-code\"")) (lit "msg") (TrimSpace jsonByte)

/-- Go `ParseJSONByteArray`: the record of a line and `true`, or no record and `false`
for the empty line; `now` is `time.Now().Unix()`. -/
def ParseJSONByteArray (now : Int) (jsonByte : Str) : Outcome (Option parsedLog × Bool) :=
  if jsonByte.length = 0 then .ok (none, false)
  else
    (detect jsonByte).bind fun s =>
      if !(s.hasEnd && s.hasStart) then .ok (some (fallbackLog now jsonByte), true)
      else
        (kvLoop jsonByte s.byteLength (jsonByte.length + 1) s.offset [] []).bind fun pl =>
          .ok (some pl, true)

/-- Whether `ParseJSONByteArray` takes the line for an object: the detection loop ends
with `hasEnd && hasStart`. -/
def isObject (jsonByte : Str) : Bool :=
  match detect jsonByte with
  | .ok s => s.hasEnd && s.hasStart
  | _ => false

/-! ## beauty.go: the filter -/

/-- Go `LogFilter`. `Meta` is a `map[string]*string`: the list order stands for the
iteration order of the map, and `none` is a nil pointer. -/
structure LogFilter where
  Level : Str
  Timestamp : Str
  Caller : Str
  Meta : List (Str × Option Str)

/-- The loop `for kf, vf := range f.Meta` of `filterJSON`, with `pp` the verdict so far;
`*vf` aborts for a nil `vf`. -/
def metaLoop (pMeta : parsedLog) (pp : Bool) : List (Str × Option Str) → Outcome Bool
  | [] => .ok pp
  | (kf, vf) :: rest =>
    match parsedLog.get? pMeta kf with
    | none => .ok false
    | some vp =>
      match vf with
      | none => .panic
      | some v => if vp ≠ v then .ok false else metaLoop pMeta pp rest

/-- Go `filterJSON`: whether the record passes the filter. -/
def filterJSON (pj : parsedLog) (f : LogFilter) : Outcome Bool :=
  let pp : Bool :=
    if f.Level ≠ [] ∧ Replace pj.GetLevel (lit "\"") [] ≠ f.Level then false
    else if f.Caller ≠ [] ∧ ¬ (Contains pj.GetCaller f.Caller = true) then false
    else if f.Timestamp ≠ [] ∧ strLess pj.GetTimestamp f.Timestamp = true then false
    else true
  metaLoop pj.GetMeta pp f.Meta

/-! ## beauty.go: the renderer -/

/-- What the renderer takes from outside the package: the five colour functions (each
maps a format string and its arguments to a styled string), `strings.ToUpper`, and
`time.Unix(ts, 0).Format("02/01/2006 15:04:05")` in the local time zone. -/
structure Env where
  fgCyan : Str → List Str → Str
  bgYellowfgBlackBold : Str → List Str → Str
  bgYellowfgBlack : Str → List Str → Str
  fgYellow : Str → List Str → Str
  fgRed : Str → List Str → Str
  ToUpper : Str → Str
  timeFormat : Int → Str

/-- The pictograph that the emoji mode puts before the level. -/
def emojiChar (l : Str) : Str :=
  if l = lit "\"info\"" then [240, 159, 147, 159]
  else if l = lit "\"warn\"" then [226, 154, 160, 32]
  else if l = lit "\"error\"" then [240, 159, 154, 168]
  else if l = lit "\"panic\"" ∨ l = lit "\"dpanic\"" then [240, 159, 146, 169]
  else if l = lit "\"fatal\"" then [226, 152, 160, 32]
  else if l = lit "\"debug\"" then [240, 159, 145, 128]
  else []

/-- The timestamp segment for the parsed seconds `ts`. -/
def tsSegment (E : Env) (emoji : Bool) (ts : Int) : Str :=
  if emoji then
    [226, 143, 176] ++ lit " " ++ E.bgYellowfgBlack (lit "%-20s") [E.timeFormat ts] ++ lit " "
  else E.bgYellowfgBlack (lit "%-20s| ") [E.timeFormat ts]

/-- The level segment, appended when the level is not empty. -/
def levelSegment (E : Env) (emoji : Bool) (l : Str) : Str :=
  if l ≠ [] then
    if emoji then
      emojiChar l ++ lit " "
        ++ E.bgYellowfgBlackBold (lit " %-8s") [Replace (E.ToUpper l) (lit "\"") []]
    else E.bgYellowfgBlackBold (lit " %-8s") [Replace (E.ToUpper l) (lit "\"") []]
  else []

/-- The caller segment, appended when the caller is not empty. -/
def callerSegment (E : Env) (emoji : Bool) (caller : Str) : Str :=
  if caller ≠ [] then
    if emoji then lit " " ++ [240, 159, 151, 163] ++ E.fgCyan (lit " [%s]") [caller]
    else E.fgCyan (lit " @[%s]") [caller]
  else []

/-- The message segment; `l` is the level without its quote characters. The message is
the format string of the colour function. -/
def msgSegment (E : Env) (l msg : Str) : Str :=
  if l = lit "debug" ∨ l = lit "warn" then lit " " ++ E.fgYellow msg []
  else if l = lit "fatal" ∨ l = lit "error" ∨ l = lit "dpanic" ∨ l = lit "panic" then
    lit " " ++ E.fgRed msg []
  else lit " " ++ msg

/-- Go `st[1 : len(st)-1]`: aborts unless `st` has at least two bytes. -/
def sliceInner (st : Str) : Outcome Str :=
  if st.length < 2 then .panic else .ok ((st.drop 1).take (st.length - 2))

/-- The stacktrace entry of the meta data block. -/
def stacktraceEntry (E : Env) (st : Str) : Outcome Str :=
  let st1 := Replace st (lit "\\n\\t") [10, 9, 9, 62, 32]
  let st2 := Replace st1 (lit "\\n") [10, 9, 9, 32]
  (sliceInner st2).bind fun st3 =>
    .ok (lit "\t" ++ E.fgRed (lit "%q") [lit "stacktrace"] ++ lit ": \n\t\t"
      ++ E.fgRed (lit "> %s") [st3] ++ lit "\n")

/-- The entries of the keys other than `stacktrace`, in the order of iteration. -/
def metaEntries (E : Env) (allMeta : parsedLog) : List (Str × Str) → Str
  | [] => []
  | (key, _) :: rest =>
    (if key ≠ lit "stacktrace" then
      lit "   " ++ E.fgCyan (lit "%q") [key] ++ lit ": " ++ parsedLog.get allMeta key ++ lit "\n"
    else []) ++ metaEntries E allMeta rest

/-- The meta data block that is appended to the main line `s`. -/
def metaBlock (E : Env) (pj : parsedLog) (s : Str) : Outcome Str :=
  if pj.GetMeta.length > 0 then
    let allMeta := pj.GetMeta
    (match parsedLog.get? allMeta (lit "stacktrace") with
      | some st => stacktraceEntry E st
      | none => .ok []).bind fun m0 =>
        .ok (s ++ (m0 ++ metaEntries E allMeta allMeta) ++ lit "\n")
  else .ok s

/-- Go `GenerateOutputString`: the formatted output string of a record, or the error of
parsing its timestamp (with the empty string). -/
def GenerateOutputString (E : Env) (pj : parsedLog) (emoji : Bool) :
    Outcome (Str × Option NumError) :=
  let l := pj.GetLevel
  let rest : Str → Outcome (Str × Option NumError) := fun s0 =>
    let s1 := s0 ++ levelSegment E emoji l
    let s2 := s1 ++ callerSegment E emoji pj.GetCaller
    let s3 := s2 ++ msgSegment E (Replace l (lit "\"") []) pj.GetMsg
    let s4 := s3 ++ lit "\n"
    (metaBlock E pj s4).bind fun s5 => .ok (s5, none)
  if pj.GetTimestamp ≠ [] then
    match ParseInt (splitFirstDot pj.GetTimestamp) with
    | .error errParse => .ok ([], some errParse)
    | .ok ts => rest (tsSegment E emoji ts)
  else rest []

/-- Go `PrettyPrint`: `w` is what has been written to the writer so far; the result is
what has been written after the call, and the returned error. -/
def PrettyPrint (E : Env) (w : Str) (pj : parsedLog) (f : LogFilter) (emoji : Bool) :
    Outcome (Str × Option NumError) :=
  (filterJSON pj f).bind fun pass =>
    if pass then
      (GenerateOutputString E pj emoji).bind fun r =>
        match r.2 with
        | some err => .ok (w, some err)
        | none => .ok (w ++ r.1, none)
    else .ok (w, none)

/-- A plain environment for examples: a colour function renders its format followed by
its arguments between brackets, upper case is ASCII upper case, and the time is shown as
its decimal number of seconds. -/
def plainEnv : Env where
  fgCyan := fun fmt args => fmt ++ args.flatMap (fun a => [91] ++ a ++ [93])
  bgYellowfgBlackBold := fun fmt args => fmt ++ args.flatMap (fun a => [91] ++ a ++ [93])
  bgYellowfgBlack := fun fmt args => fmt ++ args.flatMap (fun a => [91] ++ a ++ [93])
  fgYellow := fun fmt args => fmt ++ args.flatMap (fun a => [91] ++ a ++ [93])
  fgRed := fun fmt args => fmt ++ args.flatMap (fun a => [91] ++ a ++ [93])
  ToUpper := fun s => s.map (fun b => if 97 ≤ b ∧ b ≤ 122 then b - 32 else b)
  timeFormat := fun ts => Itoa ts

/-! ## Flat object lines -/

/-- The text `"k":v` of a pair. -/
def pairText (p : Str × Str) : Str := [34] ++ p.1 ++ [34, 58] ++ p.2

/-- The texts of the pairs, separated by `,`. -/
def pairsText : List (Str × Str) → Str
  | [] => []
  | [p] => pairText p
  | p :: q :: rest => pairText p ++ [44] ++ pairsText (q :: rest)

/-- The line `{"k1":v1,"k2":v2,...,"kn":vn}`. -/
def flatLine (kvs : List (Str × Str)) : Str := [123] ++ pairsText kvs ++ [125]

/-- The pairs as they are stored: key and value with the white space at their ends
trimmed. -/
def trimmedPairs (kvs : List (Str × Str)) : parsedLog :=
  kvs.map (fun p => (TrimSpace p.1, TrimSpace p.2))

/-- Storing the trimmed pairs one after the other. -/
def setAll (pl : parsedLog) (kvs : List (Str × Str)) : parsedLog :=
  kvs.foldl (fun m p => parsedLog.set m (TrimSpace p.1) (TrimSpace p.2)) pl

/-- What follows the first pair of a flat line: the other pairs, each after a `,`, and
the closing brace. -/
def tailText : List (Str × Str) → Str
  | [] => [125]
  | q :: rest => [44] ++ pairText q ++ tailText rest

/-! ## Notions used in the statements -/

/-- A call returns an error: it returns, and its error is not nil. -/
def returnsError (x : Outcome (Str × Option NumError)) : Prop :=
  ∃ s e, x = .ok (s, some e)

/-- A non-empty string of decimal digits. -/
def isDecimal (ds : Str) : Prop := ds ≠ [] ∧ ∀ d ∈ ds, 48 ≤ d ∧ d ≤ 57

/-- A base-10 numeral of a signed 64-bit integer: decimal digits, with an optional sign in
front, that denote a number from `-2^63` to `2^63 - 1`. -/
def validInt64 (s : Str) : Prop :=
  (isDecimal s ∧ digitsValue s < 2 ^ 63)
    ∨ (∃ ds, s = 43 :: ds ∧ isDecimal ds ∧ digitsValue ds < 2 ^ 63)
    ∨ (∃ ds, s = 45 :: ds ∧ isDecimal ds ∧ digitsValue ds ≤ 2 ^ 63)

/-- The filter `LogFilter{}` without any criterion. -/
def emptyFilter : LogFilter := { Level := [], Timestamp := [], Caller := [], Meta := [] }

/-- What the detection loop keeps true of its variables before the iteration at `i`. -/
def ScanInv (jsonByte : Str) (i : Nat) (s : Scan) : Prop :=
  s.byteLength ≤ jsonByte.length ∧
  (s.hasStart = true →
    jsonByte[s.offset]? = some 123 ∧ ∀ k, k < s.offset → jsonByte[k]? ≠ some 123) ∧
  (s.hasStart = false → ∀ k, k < i → jsonByte[k]? ≠ some 123) ∧
  (s.hasEnd = true → jsonByte[s.byteLength]? = some 125) ∧
  (s.hasEnd = false → s.byteLength = jsonByte.length)

/-- What holds of the variables when the detection loop is left. -/
def ScanFinal (jsonByte : Str) (s : Scan) : Prop :=
  s.byteLength ≤ jsonByte.length ∧
  (s.hasStart = true →
    jsonByte[s.offset]? = some 123 ∧ ∀ k, k < s.offset → jsonByte[k]? ≠ some 123) ∧
  (s.hasEnd = true → jsonByte[s.byteLength]? = some 125) ∧
  (s.hasEnd = false → s.byteLength = jsonByte.length)

/-- The timestamp segment of the main line: empty when the record has no timestamp (or
one that does not parse, in which case nothing is rendered at all). -/
def tsPart (E : Env) (pj : parsedLog) (emoji : Bool) : Str :=
  if pj.GetTimestamp ≠ [] then
    match ParseInt (splitFirstDot pj.GetTimestamp) with
    | .ok ts => tsSegment E emoji ts
    | .error _ => []
  else []

/-- The main line of the rendered record: timestamp, level, caller and message segments
and the newline. -/
def mainLine (E : Env) (pj : parsedLog) (emoji : Bool) : Str :=
  tsPart E pj emoji ++ levelSegment E emoji pj.GetLevel ++ callerSegment E emoji pj.GetCaller
    ++ msgSegment E (Replace pj.GetLevel (lit "\"") []) pj.GetMsg ++ lit "\n"

/-- The text of a stacktrace: every `\n\t` (backslash, n, backslash, t) replaced by
newline, tab, tab, `>`, space, and then every remaining `\n` (backslash, n) replaced by
newline, tab, tab, space. -/
def reformat (m : Str) : Str :=
  Replace (Replace m (lit "\\n\\t") [10, 9, 9, 62, 32]) (lit "\\n") [10, 9, 9, 32]

/-- The rendered stacktrace entry with the given body. -/
def stacktraceText (E : Env) (body : Str) : Str :=
  lit "\t" ++ E.fgRed (lit "%q") [lit "stacktrace"] ++ lit ": \n\t\t"
    ++ E.fgRed (lit "> %s") [body] ++ lit "\n"

/-- The run of bytes up to the first `"` that is not preceded by a backslash, as the
specification describes the key; `prev` is the byte before the string. -/
def upToUnescapedQuote (prev : Nat) : Str → Str
  | [] => []
  | b :: rest => if b = 34 ∧ prev ≠ 92 then [] else b :: upToUnescapedQuote b rest

/-- The string with one leading `"` and one trailing `"` removed, as the specification
describes the level that is compared. -/
def stripOuterQuotes (l : Str) : Str :=
  let l1 : Str := match l with
    | 34 :: t => t
    | _ => l
  if l1.getLast? = some 34 then l1.dropLast else l1

/-- A string of decimal digits (possibly empty). -/
def isDigits (s : Str) : Prop := ∀ d ∈ s, 48 ≤ d ∧ d ≤ 57

/-- The number denoted by the numeral `a.b`, for strings of digits `a` and `b`. -/
def decimalValue (a b : Str) : ℚ := (digitsValue a : ℚ) + (digitsValue b : ℚ) / 10 ^ b.length

/-! ## Sequencing -/

theorem Outcome.bind_ok {α β : Type} (a : α) (f : α → Outcome β) :
    (Outcome.ok a).bind f = f a := rfl

theorem Outcome.bind_eq_ok {α β : Type} {x : Outcome α} {f : α → Outcome β} {b : β}
    (h : x.bind f = .ok b) : ∃ a, x = .ok a ∧ f a = .ok b := by
  cases x with
  | ok a => exact ⟨a, rfl, h⟩
  | panic => simp [Outcome.bind] at h
  | outOfFuel => simp [Outcome.bind] at h

/-! ## The brace detection loop -/

theorem ScanInv.final {jsonByte : Str} {i : Nat} {s : Scan} (h : ScanInv jsonByte i s) :
    ScanFinal jsonByte s := ⟨h.1, h.2.1, h.2.2.2.1, h.2.2.2.2⟩

theorem frontStep_inv (jsonByte : Str) (i : Nat) (s : Scan) (h : ScanInv jsonByte i s)
    (hi : i < s.byteLength) :
    ∃ c s1, frontStep jsonByte i s = .ok (c, s1) ∧ ScanInv jsonByte (i + 1) s1
      ∧ s1.byteLength = s.byteLength ∧ s1.hasEnd = s.hasEnd := by
  obtain ⟨h1, h2, h3, h4, h5⟩ := h
  have hlen : i < jsonByte.length := by omega
  unfold frontStep
  by_cases hs : s.hasStart = true
  · refine ⟨false, s, by simp [hs], ⟨h1, h2, ?_, h4, h5⟩, rfl, rfl⟩
    intro hf; simp [hs] at hf
  · have hs2 : s.hasStart = false := by simpa using hs
    have h3a := h3 hs2
    simp only [hs2, Bool.false_eq_true, if_false, List.getElem?_eq_getElem hlen]
    by_cases hb : jsonByte[i] = 32 ∨ jsonByte[i] = 9
    · refine ⟨true, s, by simp [hb], ⟨h1, h2, ?_, h4, h5⟩, rfl, rfl⟩
      intro _ k hk
      rcases Nat.lt_succ_iff_lt_or_eq.mp hk with hk1 | hk1
      · exact h3a k hk1
      · subst hk1
        rw [List.getElem?_eq_getElem hlen]
        rcases hb with hb | hb <;> simp [hb]
    · by_cases hc : jsonByte[i] = 123
      · refine ⟨false, { s with hasStart := true, offset := i }, by simp [hb, hc],
          ⟨h1, ?_, ?_, h4, h5⟩, rfl, rfl⟩
        · intro _
          exact ⟨by simp [List.getElem?_eq_getElem hlen, hc], h3a⟩
        · intro hf; simp at hf
      · refine ⟨false, { s with hasStart := false }, by simp [hb, hc],
          ⟨h1, ?_, ?_, h4, h5⟩, rfl, rfl⟩
        · intro hf; simp at hf
        · intro _ k hk
          rcases Nat.lt_succ_iff_lt_or_eq.mp hk with hk1 | hk1
          · exact h3a k hk1
          · subst hk1
            simp [List.getElem?_eq_getElem hlen, hc]

theorem backStep_inv (jsonByte : Str) (i j : Nat) (s : Scan) (h : ScanInv jsonByte j s)
    (hi : i < s.byteLength) :
    ∃ c s1, backStep jsonByte i s = .ok (c, s1) ∧ ScanInv jsonByte j s1
      ∧ s1.byteLength ≤ s.byteLength := by
  obtain ⟨h1, h2, h3, h4, h5⟩ := h
  unfold backStep
  by_cases he : s.hasEnd = true
  · exact ⟨false, s, by simp [he], ⟨h1, h2, h3, h4, h5⟩, le_refl _⟩
  · have he2 : s.hasEnd = false := by simpa using he
    have hlen : s.byteLength - i - 1 < jsonByte.length := by omega
    have hnot : ¬ s.byteLength < i + 1 := by omega
    simp only [he2, Bool.false_eq_true, if_false, hnot, List.getElem?_eq_getElem hlen]
    by_cases hb : jsonByte[s.byteLength - i - 1] = 32 ∨ jsonByte[s.byteLength - i - 1] = 9
    · exact ⟨true, s, by simp [hb], ⟨h1, h2, h3, h4, h5⟩, le_refl _⟩
    · by_cases hc : jsonByte[s.byteLength - i - 1] = 125
      · refine ⟨false, { s with hasEnd := true, byteLength := s.byteLength - i - 1 },
          by simp [hb, hc], ⟨?_, h2, h3, ?_, ?_⟩, ?_⟩
        · show s.byteLength - i - 1 ≤ jsonByte.length
          omega
        · intro _
          show jsonByte[s.byteLength - i - 1]? = some 125
          simp [List.getElem?_eq_getElem hlen, hc]
        · intro hf; simp at hf
        · show s.byteLength - i - 1 ≤ s.byteLength
          omega
      · exact ⟨false, { s with hasEnd := false }, by simp [hb, hc],
          ⟨h1, h2, h3, fun hf => by simp at hf, fun _ => h5 he2⟩, le_refl _⟩

theorem detectBody_inv (jsonByte : Str) (i : Nat) (s : Scan) (h : ScanInv jsonByte i s)
    (hi : i < s.byteLength) :
    ∃ fl s1, detectBody jsonByte i s = .ok (fl, s1) ∧ ScanInv jsonByte (i + 1) s1
      ∧ s1.byteLength ≤ s.byteLength := by
  obtain ⟨c1, s1, e1, inv1, hbl1, _⟩ := frontStep_inv jsonByte i s h hi
  unfold detectBody
  rw [e1, Outcome.bind_ok]
  cases c1 with
  | true => exact ⟨.next, s1, by simp, inv1, by omega⟩
  | false =>
    obtain ⟨c2, s2, e2, inv2, hbl2⟩ := backStep_inv jsonByte i (i + 1) s1 inv1 (by omega)
    simp only [Bool.false_eq_true, if_false, e2, Outcome.bind_ok]
    cases c2 with
    | true => exact ⟨.next, s2, by simp, inv2, by omega⟩
    | false =>
      simp only [Bool.false_eq_true, if_false]
      split
      · exact ⟨.stop, s2, rfl, inv2, by omega⟩
      · exact ⟨.next, s2, rfl, inv2, by omega⟩

theorem detectLoop_final (jsonByte : Str) (fuel : Nat) :
    ∀ (i : Nat) (s : Scan), ScanInv jsonByte i s → s.byteLength - i < fuel →
      ∃ s1, detectLoop jsonByte fuel i s = .ok s1 ∧ ScanFinal jsonByte s1 := by
  induction fuel with
  | zero => intro i s _ hf; omega
  | succ n ih =>
    intro i s h hf
    unfold detectLoop
    by_cases hi : i < s.byteLength
    · obtain ⟨fl, s1, e, inv, hbl⟩ := detectBody_inv jsonByte i s h hi
      simp only [hi, if_true, e, Outcome.bind_ok]
      cases fl with
      | stop => exact ⟨s1, rfl, inv.final⟩
      | next => exact ih (i + 1) s1 inv (by omega)
    · exact ⟨s, by simp [hi], h.final⟩

/-- The detection loop always returns, and what it returns satisfies `ScanFinal`. -/
theorem detect_final (jsonByte : Str) :
    ∃ s, detect jsonByte = .ok s ∧ ScanFinal jsonByte s := by
  unfold detect
  apply detectLoop_final
  · refine ⟨le_refl _, ?_, ?_, ?_, ?_⟩
    · intro hf; simp at hf
    · intro _ k hk; omega
    · intro hf; simp at hf
    · intro _; rfl
  · show jsonByte.length - 0 < jsonByte.length + 1
    omega

/-! ## The key/value loop -/

/-- The key/value loop always returns: its offset grows in every iteration, and the
bytes and slices it takes lie within the line. -/
theorem kvLoop_returns (jsonByte : Str) (byteLength : Nat) (hbl : byteLength ≤ jsonByte.length)
    (fuel : Nat) :
    ∀ (offset : Nat) (foundKey : Str) (pl : parsedLog), byteLength - offset < fuel →
      ∃ pl1, kvLoop jsonByte byteLength fuel offset foundKey pl = .ok pl1 := by
  induction fuel with
  | zero => intro offset _ _ hf; omega
  | succ n ih =>
    intro offset foundKey pl hf
    unfold kvLoop
    by_cases ho : offset < byteLength
    · have hlen : offset < jsonByte.length := by omega
      have hs : ¬ jsonByte.length < offset + 1 := by omega
      simp only [ho, if_true, List.getElem?_eq_getElem hlen, hs, if_false]
      split
      · exact ih _ _ _ (by omega)
      · split
        · exact ih _ _ _ (by omega)
        · exact ih _ _ _ (by omega)
    · exact ⟨pl, by simp [ho]⟩

/-! ## Object or fallback -/

theorem isObject_eq (jsonByte : Str) (s : Scan) (h : detect jsonByte = .ok s) :
    isObject jsonByte = (s.hasEnd && s.hasStart) := by
  simp [isObject, h]

/-- A line that is not taken for an object gets the fallback record. -/
theorem parse_of_not_isObject (now : Int) (jsonByte : Str) (hne : jsonByte ≠ [])
    (h : isObject jsonByte = false) :
    ParseJSONByteArray now jsonByte = .ok (some (fallbackLog now jsonByte), true) := by
  obtain ⟨s, hs, _⟩ := detect_final jsonByte
  have h1 : (s.hasEnd && s.hasStart) = false := by rw [← isObject_eq jsonByte s hs]; exact h
  have h0 : ¬ jsonByte.length = 0 := by
    intro h0; exact hne (List.length_eq_zero.mp h0)
  simp [ParseJSONByteArray, h0, hs, Outcome.bind, h1]

/-- A line that is taken for an object gets the record collected by the key/value
loop, started at the detected opening brace and bounded by the detected closing brace. -/
theorem parse_of_isObject (now : Int) (jsonByte : Str) (h : isObject jsonByte = true) :
    ∃ s pl, detect jsonByte = .ok s ∧ ScanFinal jsonByte s
      ∧ s.hasStart = true ∧ s.hasEnd = true
      ∧ kvLoop jsonByte s.byteLength (jsonByte.length + 1) s.offset [] [] = .ok pl
      ∧ ParseJSONByteArray now jsonByte = .ok (some pl, true) := by
  obtain ⟨s, hs, hfin⟩ := detect_final jsonByte
  have h1 : (s.hasEnd && s.hasStart) = true := by rw [← isObject_eq jsonByte s hs]; exact h
  have hbl := hfin.1
  obtain ⟨pl, hpl⟩ := kvLoop_returns jsonByte s.byteLength hfin.1 (jsonByte.length + 1)
    s.offset [] [] (by omega)
  have hne : ¬ jsonByte.length = 0 := by
    intro h0
    have : jsonByte = [] := List.length_eq_zero.mp h0
    subst this
    obtain ⟨_, _, h3, _⟩ := hfin
    simp at h1
    have := h3 h1.1
    simp at this
  simp only [Bool.and_eq_true] at h1
  refine ⟨s, pl, hs, hfin, h1.2, h1.1, hpl, ?_⟩
  simp [ParseJSONByteArray, hne, hs, Outcome.bind, h1, hpl]

/-- A line taken for an object holds both braces. -/
theorem isObject_braces (jsonByte : Str) (h : isObject jsonByte = true) :
    123 ∈ jsonByte ∧ 125 ∈ jsonByte := by
  obtain ⟨s, hs, _, h2, h3, _⟩ := detect_final jsonByte
  have h1 : (s.hasEnd && s.hasStart) = true := by rw [← isObject_eq jsonByte s hs]; exact h
  simp only [Bool.and_eq_true] at h1
  exact ⟨List.getElem?_mem (h2 h1.2).1, List.getElem?_mem (h3 h1.1)⟩

/-! ## TrimSpace keeps the interior of a string -/

theorem trimLeftSpace_spec (fuel : Nat) :
    ∀ s : Str, ∃ l, s = l ++ trimLeftSpace fuel s := by
  induction fuel with
  | zero => intro s; exact ⟨[], rfl⟩
  | succ n ih =>
    intro s
    unfold trimLeftSpace
    split
    · rename_i e _
      obtain ⟨l, hl⟩ := ih (s.drop e.length)
      refine ⟨s.take e.length ++ l, ?_⟩
      rw [List.append_assoc, ← hl, List.take_append_drop]
    · exact ⟨[], rfl⟩

theorem trimRightSpace_spec (fuel : Nat) :
    ∀ s : Str, ∃ r, s = trimRightSpace fuel s ++ r := by
  induction fuel with
  | zero => intro s; exact ⟨[], by simp [trimRightSpace]⟩
  | succ n ih =>
    intro s
    unfold trimRightSpace
    split
    · rename_i e _
      obtain ⟨r, hr⟩ := ih (s.take (s.length - e.length))
      refine ⟨r ++ s.drop (s.length - e.length), ?_⟩
      rw [← List.append_assoc, ← hr, List.take_append_drop]
    · exact ⟨[], by simp⟩

/-- The result of `TrimSpace` is a contiguous part of its argument: bytes are removed at
the two ends only. -/
theorem TrimSpace_spec (s : Str) : ∃ l r, s = l ++ TrimSpace s ++ r := by
  obtain ⟨l, hl⟩ := trimLeftSpace_spec s.length s
  obtain ⟨r, hr⟩ := trimRightSpace_spec (trimLeftSpace s.length s).length
    (trimLeftSpace s.length s)
  refine ⟨l, r, ?_⟩
  show s = l ++ trimRightSpace (trimLeftSpace s.length s).length (trimLeftSpace s.length s) ++ r
  rw [List.append_assoc, ← hr, ← hl]

/-! ## The fields of the fallback record -/

theorem fallbackLog_eq (now : Int) (jsonByte : Str) :
    fallbackLog now jsonByte =
      [(lit "level", lit "\"debug\""), (lit "ts", Itoa now),
       (lit "caller", lit "\"user-code\""), (lit "msg", TrimSpace jsonByte)] := by
  rfl

theorem fallbackLog_fields (now : Int) (jsonByte : Str) :
    (fallbackLog now jsonByte).GetLevel = lit "\"debug\""
      ∧ (fallbackLog now jsonByte).GetCaller = lit "\"user-code\""
      ∧ (fallbackLog now jsonByte).GetMsg = TrimSpace jsonByte
      ∧ (fallbackLog now jsonByte).GetTimestamp = Itoa now := by
  rw [fallbackLog_eq]
  exact ⟨rfl, rfl, rfl, rfl⟩

/-! ## Single iterations of the key/value loop -/

theorem getElem?_append_cons (pre : Str) (x : Nat) (rest : Str) :
    (pre ++ x :: rest)[pre.length]? = some x := by
  induction pre with
  | nil => simp
  | cons a pre ih => simpa using ih

theorem drop_append_cons (pre : Str) (x : Nat) (rest : Str) :
    (pre ++ x :: rest).drop (pre.length + 1) = rest := by
  induction pre with
  | nil => rfl
  | cons a pre ih => simp

theorem findKeyLoop_append (k : Str) (rest : Str) (hk : 34 ∉ k) :
    ∀ (acc : Str) (i : Nat),
      findKeyLoop acc i (k ++ 34 :: rest) = (acc ++ k, i + k.length) := by
  induction k with
  | nil => intro acc i; simp [findKeyLoop]
  | cons b k ih =>
    intro acc i
    have hb : b ≠ 34 := fun h => hk (by simp [h])
    have hk2 : 34 ∉ k := fun h => hk (by simp [h])
    rw [List.cons_append, findKeyLoop, if_neg hb, ih hk2]
    simp only [List.append_assoc, List.singleton_append, List.length_cons, Prod.mk.injEq,
      true_and]
    omega

theorem findKey_append (k : Str) (rest : Str) (hk : 34 ∉ k) :
    findKey (k ++ 34 :: rest) = (k, k.length) := by
  simp [findKey, findKeyLoop_append k rest hk]

theorem findValueLoop_append (v : Str) (sep : Nat) (rest : Str) (hv : 44 ∉ v ∧ 125 ∉ v)
    (hsep : sep = 44 ∨ sep = 125) :
    ∀ (acc : Str) (i : Nat),
      findValueLoop acc i (v ++ sep :: rest) = (acc ++ v, i + v.length) := by
  induction v with
  | nil => intro acc i; simp [findValueLoop, hsep]
  | cons b v ih =>
    intro acc i
    have hb : ¬ (b = 44 ∨ b = 125) := by
      rintro (h | h)
      · exact hv.1 (by simp [h])
      · exact hv.2 (by simp [h])
    have hv2 : 44 ∉ v ∧ 125 ∉ v :=
      ⟨fun h => hv.1 (by simp [h]), fun h => hv.2 (by simp [h])⟩
    rw [List.cons_append, findValueLoop, if_neg hb, ih hv2]
    simp only [List.append_assoc, List.singleton_append, List.length_cons, Prod.mk.injEq,
      true_and]
    omega

theorem findValue_append (v : Str) (sep : Nat) (rest : Str) (hv : 44 ∉ v ∧ 125 ∉ v)
    (hsep : sep = 44 ∨ sep = 125) :
    findValue (v ++ sep :: rest) = (v, v.length) := by
  simp [findValue, findValueLoop_append v sep rest hv hsep]

/-- An iteration at a `"`: the key up to the next `"` is remembered (trimmed), and the
scan goes on behind that `"`. -/
theorem kvLoop_key_step (pre k rest : Str) (hk : 34 ∉ k) (bl fuel : Nat) (foundKey : Str)
    (pl : parsedLog) (hlt : pre.length < bl) :
    kvLoop (pre ++ 34 :: (k ++ 34 :: rest)) bl (fuel + 1) pre.length foundKey pl
      = kvLoop (pre ++ 34 :: (k ++ 34 :: rest)) bl fuel (pre.length + k.length + 2)
          (TrimSpace k) pl := by
  have hlen : ¬ (pre ++ 34 :: (k ++ 34 :: rest)).length < pre.length + 1 := by
    simp only [List.length_append, List.length_cons]; omega
  rw [kvLoop]
  simp only [hlt, if_true, getElem?_append_cons, hlen, if_false, drop_append_cons,
    findKey_append k rest hk]
  rfl

/-- An iteration at a `:`: the value up to the next `,` or `}` is stored (trimmed) under
the remembered key, and the scan goes on behind that byte. -/
theorem kvLoop_value_step (pre v : Str) (sep : Nat) (rest : Str) (hv : 44 ∉ v ∧ 125 ∉ v)
    (hsep : sep = 44 ∨ sep = 125) (bl fuel : Nat) (foundKey : Str) (pl : parsedLog)
    (hlt : pre.length < bl) :
    kvLoop (pre ++ 58 :: (v ++ sep :: rest)) bl (fuel + 1) pre.length foundKey pl
      = kvLoop (pre ++ 58 :: (v ++ sep :: rest)) bl fuel (pre.length + v.length + 2)
          foundKey (parsedLog.set pl foundKey (TrimSpace v)) := by
  have hlen : ¬ (pre ++ 58 :: (v ++ sep :: rest)).length < pre.length + 1 := by
    simp only [List.length_append, List.length_cons]; omega
  rw [kvLoop]
  simp only [hlt, if_true, getElem?_append_cons, hlen, if_false, drop_append_cons,
    findValue_append v sep rest hv hsep]
  rfl

/-- An iteration at any other byte: the scan goes on at the next byte. -/
theorem kvLoop_other_step (pre : Str) (b : Nat) (rest : Str) (hb1 : b ≠ 34) (hb2 : b ≠ 58)
    (bl fuel : Nat) (foundKey : Str) (pl : parsedLog) (hlt : pre.length < bl) :
    kvLoop (pre ++ b :: rest) bl (fuel + 1) pre.length foundKey pl
      = kvLoop (pre ++ b :: rest) bl fuel (pre.length + 1) foundKey pl := by
  rw [kvLoop]
  simp only [hlt, if_true, getElem?_append_cons, hb1, hb2, if_false]

/-- The loop is left when the offset has reached the bound. -/
theorem kvLoop_done (jsonByte : Str) (bl fuel offset : Nat) (foundKey : Str) (pl : parsedLog)
    (h : bl ≤ offset) : kvLoop jsonByte bl (fuel + 1) offset foundKey pl = .ok pl := by
  rw [kvLoop]
  simp [Nat.not_lt.mpr h]

/-! ## The key/value loop on a flat line -/

theorem pairText_length (p : Str × Str) :
    (pairText p).length = p.1.length + p.2.length + 3 := by
  simp only [pairText, List.length_append, List.length_cons, List.length_nil]
  omega

theorem tailText_head (rest : List (Str × Str)) :
    ∃ sep post, tailText rest = sep :: post ∧ (sep = 44 ∨ sep = 125) := by
  cases rest with
  | nil => exact ⟨125, [], rfl, Or.inr rfl⟩
  | cons q rest => exact ⟨44, pairText q ++ tailText rest, rfl, Or.inl rfl⟩

theorem tailText_length_pos (rest : List (Str × Str)) : 0 < (tailText rest).length := by
  obtain ⟨sep, post, h, _⟩ := tailText_head rest
  rw [h]; simp

/-- The two iterations that read one pair `"k":v`. -/
theorem kvLoop_pair (pre : Str) (p : Str × Str) (sep : Nat) (post : Str) (hk : 34 ∉ p.1)
    (hv : 44 ∉ p.2 ∧ 125 ∉ p.2) (hsep : sep = 44 ∨ sep = 125) (bl fuel : Nat)
    (foundKey : Str) (pl : parsedLog) (hlt : pre.length + p.1.length + 2 < bl) :
    kvLoop (pre ++ pairText p ++ sep :: post) bl (fuel + 2) pre.length foundKey pl
      = kvLoop (pre ++ pairText p ++ sep :: post) bl fuel
          ((pre ++ pairText p).length + 1) (TrimSpace p.1)
          (parsedLog.set pl (TrimSpace p.1) (TrimSpace p.2)) := by
  have e1 : pre ++ pairText p ++ sep :: post
      = pre ++ 34 :: (p.1 ++ 34 :: (58 :: (p.2 ++ sep :: post))) := by
    simp [pairText]
  have e2 : pre ++ 34 :: (p.1 ++ 34 :: (58 :: (p.2 ++ sep :: post)))
      = (pre ++ 34 :: (p.1 ++ [34])) ++ 58 :: (p.2 ++ sep :: post) := by
    simp
  have hl2 : (pre ++ 34 :: (p.1 ++ [34])).length = pre.length + p.1.length + 2 := by
    simp only [List.length_append, List.length_cons, List.length_nil]; omega
  have hl3 : (pre ++ pairText p).length + 1 = pre.length + p.1.length + 2 + p.2.length + 2 := by
    rw [List.length_append, pairText_length]; omega
  rw [e1, kvLoop_key_step pre p.1 _ hk bl (fuel + 1) foundKey pl (by omega), e2, ← hl2,
    kvLoop_value_step _ p.2 sep post hv hsep bl fuel (TrimSpace p.1) pl (by omega), hl2, hl3]

/-- The key/value loop, started at the first `"` of a run of pairs that ends the line,
stores the pairs one after the other. -/
theorem kvLoop_pairs (rest : List (Str × Str)) :
    ∀ (pre : Str) (p : Str × Str) (fuel : Nat) (foundKey : Str) (pl : parsedLog),
      (∀ q ∈ p :: rest, 34 ∉ q.1) → (∀ q ∈ p :: rest, 44 ∉ q.2 ∧ 125 ∉ q.2) →
      2 * rest.length + 2 < fuel →
      kvLoop (pre ++ pairText p ++ tailText rest)
          ((pre ++ pairText p ++ tailText rest).length - 1) fuel pre.length foundKey pl
        = .ok (setAll pl (p :: rest)) := by
  induction rest with
  | nil =>
    intro pre p fuel foundKey pl hk hv hf
    obtain ⟨n, rfl⟩ : ∃ n, fuel = n + 1 + 2 := ⟨fuel - 3, by simp at hf; omega⟩
    have hlen : (pre ++ pairText p ++ tailText []).length
        = pre.length + p.1.length + p.2.length + 4 := by
      simp only [tailText, List.length_append, pairText_length, List.length_cons,
        List.length_nil]
      omega
    rw [hlen]
    show kvLoop (pre ++ pairText p ++ 125 :: []) _ _ _ _ _ = _
    rw [kvLoop_pair pre p 125 [] (hk p (by simp)) (hv p (by simp)) (Or.inr rfl) _ (n + 1)
      foundKey pl (by omega)]
    rw [kvLoop_done _ _ _ _ _ _ (by rw [List.length_append, pairText_length]; omega)]
    rfl
  | cons q rest ih =>
    intro pre p fuel foundKey pl hk hv hf
    obtain ⟨n, rfl⟩ : ∃ n, fuel = n + 2 := ⟨fuel - 2, by omega⟩
    have hpos := tailText_length_pos rest
    have hlen : (pre ++ pairText p ++ tailText (q :: rest)).length
        = pre.length + p.1.length + p.2.length + 3 + 1 + (q.1.length + q.2.length + 3)
          + (tailText rest).length := by
      simp only [tailText, List.length_append, pairText_length, List.length_cons,
        List.length_nil]
      omega
    have e1 : pre ++ pairText p ++ tailText (q :: rest)
        = pre ++ pairText p ++ 44 :: (pairText q ++ tailText rest) := by
      simp [tailText]
    have e2 : pre ++ pairText p ++ 44 :: (pairText q ++ tailText rest)
        = (pre ++ pairText p ++ [44]) ++ pairText q ++ tailText rest := by
      simp
    have hl : (pre ++ pairText p).length + 1 = (pre ++ pairText p ++ [44]).length := by
      simp only [List.length_append, List.length_cons, List.length_nil]
    rw [e1, kvLoop_pair pre p 44 _ (hk p (by simp)) (hv p (by simp)) (Or.inl rfl) _ n
      foundKey pl (by rw [← e1, hlen]; omega), e2, hl]
    rw [ih (pre ++ pairText p ++ [44]) q n (TrimSpace p.1) _
      (fun r hr => hk r (List.mem_cons_of_mem _ hr))
      (fun r hr => hv r (List.mem_cons_of_mem _ hr))
      (by simp only [List.length_cons] at hf; omega)]
    rfl

/-! ## Records as maps -/

theorem parsedLog.set_of_not_mem (pl : parsedLog) (k v : Str) (h : k ∉ pl.map Prod.fst) :
    parsedLog.set pl k v = pl ++ [(k, v)] := by
  induction pl with
  | nil => rfl
  | cons a pl ih =>
    obtain ⟨k1, v1⟩ := a
    have h1 : k1 ≠ k := fun e => h (by simp [e])
    have h2 : k ∉ pl.map Prod.fst := fun e => h (by simp at e ⊢; exact Or.inr e)
    simp [parsedLog.set, h1, ih h2]

theorem parsedLog.get?_of_mem (pl : parsedLog) (k v : Str) (hd : (pl.map Prod.fst).Nodup)
    (h : (k, v) ∈ pl) : parsedLog.get? pl k = some v := by
  induction pl with
  | nil => simp at h
  | cons a pl ih =>
    obtain ⟨k1, v1⟩ := a
    simp only [List.map_cons, List.nodup_cons] at hd
    rcases List.mem_cons.mp h with h | h
    · cases h
      simp [parsedLog.get?]
    · have hne : k1 ≠ k := by
        intro e
        subst e
        exact hd.1 (List.mem_map.mpr ⟨(k1, v), h, rfl⟩)
      simp [parsedLog.get?, hne, ih hd.2 h]

theorem parsedLog.get?_eq_none (pl : parsedLog) (k : Str) (h : k ∉ pl.map Prod.fst) :
    parsedLog.get? pl k = none := by
  induction pl with
  | nil => rfl
  | cons a pl ih =>
    obtain ⟨k1, v1⟩ := a
    have h1 : k1 ≠ k := fun e => h (by simp [e])
    have h2 : k ∉ pl.map Prod.fst := fun e => h (by simp at e ⊢; exact Or.inr e)
    simp [parsedLog.get?, h1, ih h2]

theorem setAll_of_nodup (kvs : List (Str × Str)) :
    ∀ pl : parsedLog, (pl.map Prod.fst ++ (trimmedPairs kvs).map Prod.fst).Nodup →
      setAll pl kvs = pl ++ trimmedPairs kvs := by
  induction kvs with
  | nil => intro pl _; simp [setAll, trimmedPairs]
  | cons p kvs ih =>
    intro pl hd
    have hnot : TrimSpace p.1 ∉ pl.map Prod.fst := by
      intro hm
      rw [List.nodup_append] at hd
      exact hd.2.2 hm (by simp [trimmedPairs])
    have hd2 : ((pl ++ [(TrimSpace p.1, TrimSpace p.2)]).map Prod.fst
        ++ (trimmedPairs kvs).map Prod.fst).Nodup := by
      simpa [trimmedPairs] using hd
    show setAll (parsedLog.set pl (TrimSpace p.1) (TrimSpace p.2)) kvs = _
    rw [parsedLog.set_of_not_mem pl _ _ hnot, ih _ hd2]
    simp [trimmedPairs]

theorem parsedLog.get?_isSome_iff (pl : parsedLog) (k : Str) :
    (parsedLog.get? pl k).isSome = true ↔ k ∈ pl.map Prod.fst := by
  induction pl with
  | nil => simp [parsedLog.get?]
  | cons a pl ih =>
    obtain ⟨k1, v1⟩ := a
    by_cases h : k1 = k
    · simp [parsedLog.get?, h]
    · have h2 : ¬ k = k1 := fun e => h e.symm
      simp [parsedLog.get?, h, h2, ih]

/-! ## Detection and scan of a flat line -/

theorem detect_braced (mid : Str) :
    detect (123 :: (mid ++ [125]))
      = .ok { hasStart := true, hasEnd := true, offset := 0, byteLength := mid.length + 1 } := by
  have h1 : (123 :: (mid ++ [125]))[mid.length + 1]? = some 125 := by
    simp
  simp [detect, detectLoop, detectBody, frontStep, backStep, Outcome.bind, h1]

theorem pairsText_tail (rest : List (Str × Str)) :
    ∀ p : Str × Str, pairsText (p :: rest) ++ [125] = pairText p ++ tailText rest := by
  induction rest with
  | nil => intro p; rfl
  | cons q rest ih =>
    intro p
    show pairText p ++ [44] ++ pairsText (q :: rest) ++ [125] = _
    rw [List.append_assoc, ih q]
    simp [tailText]

/-- The record that `ParseJSONByteArray` returns for a flat line, whatever its keys. -/
theorem parse_flatLine (now : Int) (kvs : List (Str × Str)) (hk : ∀ p ∈ kvs, 34 ∉ p.1)
    (hv : ∀ p ∈ kvs, 44 ∉ p.2 ∧ 125 ∉ p.2) :
    ParseJSONByteArray now (flatLine kvs) = .ok (some (setAll [] kvs), true) := by
  have hform : flatLine kvs = 123 :: (pairsText kvs ++ [125]) := by simp [flatLine]
  have hne : ¬ (pairsText kvs).length + 2 = 0 := by omega
  have hdet := detect_braced (pairsText kvs)
  rw [← hform] at hdet
  have hlen : (flatLine kvs).length = (pairsText kvs).length + 2 := by rw [hform]; simp
  simp only [ParseJSONByteArray, hne, if_false, hdet, Outcome.bind_ok, Bool.and_self,
    Bool.not_true, Bool.false_eq_true, hlen]
  cases kvs with
  | nil =>
    have e : flatLine [] = [] ++ 123 :: [125] := rfl
    rw [e]
    show (kvLoop ([] ++ 123 :: [125]) 1 (0 + 2 + 1) ([] : Str).length [] []).bind _ = _
    rw [kvLoop_other_step [] 123 [125] (by decide) (by decide) 1 2 [] [] (by decide),
      kvLoop_done _ _ _ _ _ _ (by decide)]
    rfl
  | cons p rest =>
    have e : flatLine (p :: rest) = [] ++ 123 :: (pairText p ++ tailText rest) := by
      rw [hform, pairsText_tail]; rfl
    have e2 : ([] : Str) ++ 123 :: (pairText p ++ tailText rest)
        = [123] ++ pairText p ++ tailText rest := by simp
    have hl2 : (pairsText (p :: rest)).length + 1
        = ([123] ++ pairText p ++ tailText rest).length - 1 := by
      have := congrArg List.length (pairsText_tail rest p)
      simp only [List.length_append, List.length_cons, List.length_nil] at this ⊢
      omega
    have hpos := tailText_length_pos rest
    rw [e]
    show (kvLoop ([] ++ 123 :: (pairText p ++ tailText rest)) _
      ((pairsText (p :: rest)).length + 2 + 1) ([] : Str).length [] []).bind _ = _
    rw [kvLoop_other_step [] 123 _ (by decide) (by decide) _ _ [] []
      (by simp only [List.length_nil]; omega), e2, hl2]
    have hfuel : 2 * rest.length + 2 < (pairsText (p :: rest)).length + 2 := by
      have h3 : ∀ (r : List (Str × Str)), 3 * r.length < (tailText r).length + 3 := by
        intro r
        induction r with
        | nil => simp [tailText]
        | cons q r ihr =>
          simp only [tailText, List.length_append, List.length_cons, List.length_nil,
            pairText_length]
          omega
      have := congrArg List.length (pairsText_tail rest p)
      simp only [List.length_append, List.length_cons, List.length_nil,
        pairText_length] at this
      have := h3 rest
      omega
    rw [show ([] : Str).length + 1 = ([123] : Str).length from rfl,
      kvLoop_pairs rest [123] p _ [] [] hk hv hfuel]
    rfl

/-! ## The comparisons of the filter -/

theorem Replace_quote (s : Str) : Replace s (lit "\"") [] = s.filter (fun b => b != 34) := by
  unfold Replace
  induction s with
  | nil => rfl
  | cons c cs ih =>
    have hl : lit "\"" = [34] := rfl
    rw [hl] at ih ⊢
    by_cases h : c = 34
    · subst h
      simp [replaceFrom, ih]
    · have h2 : ¬ 34 = c := fun e => h e.symm
      simp [replaceFrom, ih, h, h2]

theorem Contains_iff (s substr : Str) : Contains s substr = true ↔ substr <:+: s := by
  unfold Contains
  rw [List.any_eq_true]
  constructor
  · rintro ⟨t, ht, hp⟩
    rw [List.mem_tails] at ht
    rw [ List.isPrefixOf_iff_prefix] at hp
    exact List.infix_iff_prefix_suffix.mpr ⟨t, hp, ht⟩
  · intro h
    obtain ⟨t, hp, ht⟩ := List.infix_iff_prefix_suffix.mp h
    exact ⟨t, (List.mem_tails _ _).mpr ht, List.isPrefixOf_iff_prefix.mpr hp⟩

theorem strLess_iff (a : Str) :
    ∀ b : Str, strLess a b = true ↔ List.Lex (fun x y : Nat => x < y) a b := by
  induction a with
  | nil =>
    intro b
    cases b with
    | nil => simp [strLess]
    | cons y ys => simp [strLess, List.Lex.nil]
  | cons x xs ih =>
    intro b
    cases b with
    | nil => simp [strLess]
    | cons y ys =>
      unfold strLess
      by_cases h1 : x < y
      · simp only [h1, if_true, true_iff]
        exact List.Lex.rel h1
      · by_cases h2 : y < x
        · simp only [h1, h2, if_false, if_true, Bool.false_eq_true, false_iff]
          intro h
          cases h with
          | rel h => exact h1 h
          | cons _ => exact absurd h2 (lt_irrefl _)
        · simp only [h1, h2, if_false, ih ys]
          have hxy : x = y := by omega
          subst hxy
          constructor
          · intro h; exact List.Lex.cons h
          · intro h
            cases h with
            | rel h => exact absurd h h1
            | cons h => exact h

theorem metaLoop_spec (pMeta : parsedLog) (pp : Bool) (ms : List (Str × Option Str))
    (hset : ∀ p ∈ ms, p.2 ≠ none) :
    ∃ b, metaLoop pMeta pp ms = .ok b
      ∧ (b = true ↔ pp = true ∧ ∀ k v, (k, some v) ∈ ms → parsedLog.get? pMeta k = some v) := by
  induction ms with
  | nil => exact ⟨pp, rfl, by simp⟩
  | cons m ms ih =>
    obtain ⟨kf, vf⟩ := m
    obtain ⟨b, hb, hiff⟩ := ih (fun p hp => hset p (List.mem_cons_of_mem _ hp))
    cases vf with
    | none => exact absurd rfl (hset (kf, none) (by simp))
    | some v =>
      unfold metaLoop
      cases hg : parsedLog.get? pMeta kf with
      | none =>
        refine ⟨false, rfl, ?_⟩
        simp only [Bool.false_eq_true, false_iff, not_and]
        intro _ hall
        have := hall kf v (by simp)
        rw [hg] at this
        simp at this
      | some vp =>
        by_cases hv : vp = v
        · subst hv
          refine ⟨b, by simp [hb], ?_⟩
          rw [hiff]
          constructor
          · rintro ⟨h1, h2⟩
            refine ⟨h1, ?_⟩
            intro k v hm
            rcases List.mem_cons.mp hm with hm | hm
            · cases hm; exact hg
            · exact h2 k v hm
          · rintro ⟨h1, h2⟩
            exact ⟨h1, fun k v hm => h2 k v (List.mem_cons_of_mem _ hm)⟩
        · refine ⟨false, by simp [hv], ?_⟩
          simp only [Bool.false_eq_true, false_iff, not_and]
          intro _ hall
          have := hall kf v (by simp)
          rw [hg] at this
          exact hv (Option.some.inj this)

/-! ## The timestamp of the renderer -/

theorem isDecimal_all (ds : Str) :
    (ds.isEmpty || !(ds.all (fun d => decide (48 ≤ d ∧ d ≤ 57)))) = false ↔ isDecimal ds := by
  unfold isDecimal
  cases ds with
  | nil => simp
  | cons d ds => simp [List.all_eq_true]

theorem digits_foldl (s : Str) :
    ∀ acc : Nat, s.foldl (fun n c => 10 * n + (c - 48)) acc = acc * 10 ^ s.length + digitsValue s := by
  unfold digitsValue
  induction s with
  | nil => intro acc; simp
  | cons c s ih =>
    intro acc
    rw [List.foldl_cons, List.foldl_cons, ih (10 * acc + (c - 48)), ih (10 * 0 + (c - 48))]
    simp only [List.length_cons, pow_succ]
    ring

theorem digitsValue_cons (c : Nat) (s : Str) :
    digitsValue (c :: s) = (c - 48) * 10 ^ s.length + digitsValue s := by
  have h := digits_foldl s (10 * 0 + (c - 48))
  unfold digitsValue at h ⊢
  rw [List.foldl_cons, h]
  simp

theorem parseUintLoop_ok (ds : Str) :
    ∀ (n v : Nat), n < 2 ^ 64 →
      (parseUintLoop n ds = (v, none)
        ↔ (∀ d ∈ ds, 48 ≤ d ∧ d ≤ 57) ∧ n * 10 ^ ds.length + digitsValue ds < 2 ^ 64
            ∧ v = n * 10 ^ ds.length + digitsValue ds) := by
  induction ds with
  | nil =>
    intro n v hn
    simp only [parseUintLoop, Prod.mk.injEq, and_true, List.not_mem_nil, false_implies,
      implies_true, List.length_nil, pow_zero, Nat.mul_one, digitsValue, List.foldl_nil,
      Nat.add_zero, true_and]
    constructor
    · intro h; exact ⟨hn, h.symm⟩
    · intro h; exact h.2.symm
  | cons c rest ih =>
    intro n v hn
    have hP : 0 < 10 ^ rest.length := by positivity
    have hring : n * 10 ^ (c :: rest).length + digitsValue (c :: rest)
        = (n * 10 + (c - 48)) * 10 ^ rest.length + digitsValue rest := by
      rw [digitsValue_cons, List.length_cons, pow_succ]
      ring
    rw [hring]
    by_cases hc : 48 ≤ c ∧ c ≤ 57
    · have hall : (∀ d ∈ c :: rest, 48 ≤ d ∧ d ≤ 57) ↔ ∀ d ∈ rest, 48 ≤ d ∧ d ≤ 57 := by
        simp [hc]
      rw [hall]
      by_cases hbig : 2 ^ 64 ≤ n * 10 + (c - 48)
      · have hge : 2 ^ 64 ≤ (n * 10 + (c - 48)) * 10 ^ rest.length + digitsValue rest := by
          have := Nat.le_mul_of_pos_right (n * 10 + (c - 48)) hP
          omega
        have hres : parseUintLoop n (c :: rest) = (2 ^ 64 - 1, some .ErrRange) := by
          unfold parseUintLoop
          rw [if_pos hc]
          by_cases hcut : 1844674407370955162 ≤ n
          · rw [if_pos hcut]
          · rw [if_neg hcut]
            have hwrap : (n * 10 + (c - 48)) % 2 ^ 64 < n * 10 := by
              have h1 : (n * 10 + (c - 48)) % 2 ^ 64 = n * 10 + (c - 48) - 2 ^ 64 := by
                rw [Nat.mod_eq_sub_mod hbig]
                apply Nat.mod_eq_of_lt
                omega
              omega
            simp only [hwrap, true_or, if_true]
        rw [hres]
        constructor
        · intro h; cases h
        · intro h; omega
      · have hmod : (n * 10 + (c - 48)) % 2 ^ 64 = n * 10 + (c - 48) :=
          Nat.mod_eq_of_lt (by omega)
        have hcut : ¬ 1844674407370955162 ≤ n := by omega
        have hno : ¬ (n * 10 + (c - 48) < n * 10 ∨ 2 ^ 64 - 1 < n * 10 + (c - 48)) := by omega
        have hres : parseUintLoop n (c :: rest) = parseUintLoop (n * 10 + (c - 48)) rest := by
          rw [parseUintLoop, if_pos hc, if_neg hcut]
          simp only [hmod, hno, if_false]
        rw [hres]
        exact ih (n * 10 + (c - 48)) v (by omega)
    · have hres : parseUintLoop n (c :: rest) = (0, some .ErrSyntax) := by
        rw [parseUintLoop, if_neg hc]
      rw [hres]
      constructor
      · intro h; cases h
      · intro h; exact absurd (h.1 c (by simp)) hc

theorem parseUintLoop_range (ds : Str) :
    ∀ n : Nat, (parseUintLoop n ds).2 = some .ErrRange → (parseUintLoop n ds).1 = 2 ^ 64 - 1 := by
  induction ds with
  | nil => intro n h; simp [parseUintLoop] at h
  | cons c rest ih =>
    intro n
    unfold parseUintLoop
    split
    · split
      · intro _; rfl
      · simp only
        split
        · intro _; rfl
        · exact ih _
    · intro h; simp at h

theorem parseDigits_ok_iff (s0 : Str) (neg : Bool) (ds : Str) :
    (∃ z, parseDigits s0 neg ds = .ok z)
      ↔ isDecimal ds ∧ (if neg then digitsValue ds ≤ 2 ^ 63 else digitsValue ds < 2 ^ 63) := by
  unfold parseDigits ParseUint isDecimal
  by_cases hnil : ds = []
  · subst hnil
    simp
  · simp only [hnil, if_false, ne_eq, not_false_eq_true, true_and]
    have hok := parseUintLoop_ok ds 0 (parseUintLoop 0 ds).1 (by norm_num)
    simp only [Nat.zero_mul, Nat.zero_add] at hok
    cases herr : (parseUintLoop 0 ds).2 with
    | none =>
      have hpair : parseUintLoop 0 ds = ((parseUintLoop 0 ds).1, none) := by
        rw [← herr]
      obtain ⟨hdig, hlt, hv⟩ := hok.mp hpair
      simp only [reduceCtorEq, if_false, hv]
      cases neg
      · by_cases h : 2 ^ 63 ≤ digitsValue ds
        · have h2 : ¬ digitsValue ds < 2 ^ 63 := by omega
          simp only [Bool.not_false, Bool.true_and, decide_eq_true_eq, h, if_true,
            Bool.false_eq_true, if_false, h2, and_false, iff_false]
          rintro ⟨z, hz⟩
          cases hz
        · have h2 : digitsValue ds < 2 ^ 63 := by omega
          simp only [Bool.not_false, Bool.true_and, decide_eq_true_eq, h, if_false,
            Bool.false_and, Bool.false_eq_true, h2, and_true, iff_true, hdig]
          exact ⟨fun _ => hdig, fun _ => ⟨_, rfl⟩⟩
      · by_cases h : 2 ^ 63 < digitsValue ds
        · have h2 : ¬ digitsValue ds ≤ 2 ^ 63 := by omega
          simp only [Bool.not_true, Bool.false_and, Bool.false_eq_true, if_false,
            Bool.true_and, decide_eq_true_eq, h, if_true, h2, and_false, iff_false]
          rintro ⟨z, hz⟩
          cases hz
        · have h2 : digitsValue ds ≤ 2 ^ 63 := by omega
          simp only [Bool.not_true, Bool.false_and, Bool.false_eq_true, if_false,
            Bool.true_and, decide_eq_true_eq, h, if_true, h2, and_true, iff_true, hdig]
          exact ⟨fun _ => hdig, fun _ => ⟨_, rfl⟩⟩
    | some k =>
      have hnot : ¬ ((∀ d ∈ ds, 48 ≤ d ∧ d ≤ 57) ∧ digitsValue ds < 2 ^ 64) := by
        rintro ⟨hd, hlt⟩
        have := (parseUintLoop_ok ds 0 (digitsValue ds) (by norm_num)).mpr
          (by simpa using ⟨hd, hlt⟩)
        rw [this] at herr
        cases herr
      cases k with
      | ErrSyntax =>
        simp only [if_true]
        constructor
        · rintro ⟨z, hz⟩; cases hz
        · rintro ⟨hd, hr⟩
          exfalso
          apply hnot
          refine ⟨hd, ?_⟩
          cases neg <;> simp at hr <;> omega
      | ErrRange =>
        have hmax := parseUintLoop_range ds 0 herr
        simp only [reduceCtorEq, if_false, hmax]
        constructor
        · rintro ⟨z, hz⟩
          cases neg <;> simp at hz
        · rintro ⟨hd, hr⟩
          exfalso
          apply hnot
          refine ⟨hd, ?_⟩
          cases neg <;> simp at hr <;> omega

/-- The model of `strconv.ParseInt` succeeds exactly on the numerals of signed 64-bit
integers. -/
theorem ParseInt_ok_iff (s : Str) : (∃ z, ParseInt s = .ok z) ↔ validInt64 s := by
  cases s with
  | nil => simp [ParseInt, validInt64, isDecimal]
  | cons c rest =>
    unfold ParseInt validInt64
    by_cases h43 : c = 43
    · subst h43
      simp only [if_true, parseDigits_ok_iff, Bool.false_eq_true, if_false]
      simp [isDecimal]
    · by_cases h45 : c = 45
      · subst h45
        simp only [if_true, parseDigits_ok_iff, h43, if_false]
        simp [isDecimal]
      · simp only [h43, h45, if_false, parseDigits_ok_iff, Bool.false_eq_true]
        simp [h43, h45]

theorem bind_pair_none_not_error (x : Outcome Str) :
    ¬ returnsError (x.bind fun s5 => .ok (s5, none)) := by
  rintro ⟨s, e, h⟩
  cases x <;> simp [Outcome.bind] at h

/-- The only error of `GenerateOutputString` is the error of parsing the timestamp. -/
theorem GenerateOutputString_error (E : Env) (r : parsedLog) (emoji : Bool) :
    returnsError (GenerateOutputString E r emoji)
      ↔ r.GetTimestamp ≠ [] ∧ ∃ e, ParseInt (splitFirstDot r.GetTimestamp) = .error e := by
  unfold GenerateOutputString
  by_cases hts : r.GetTimestamp = []
  · simp only [hts, ne_eq, not_true_eq_false, if_false, false_and, iff_false]
    exact bind_pair_none_not_error _
  · simp only [ne_eq, hts, not_false_eq_true, if_true, true_and]
    cases hp : ParseInt (splitFirstDot r.GetTimestamp) with
    | error e =>
      simp only [Except.error.injEq, exists_eq', iff_true]
      exact ⟨[], e, rfl⟩
    | ok z =>
      have hno : ¬ ∃ e, (Except.ok z : Except NumError Int) = .error e := by
        rintro ⟨e, he⟩
        cases he
      simp only [hno, iff_false]
      exact bind_pair_none_not_error _

/-! ## Claims -/

/-- C1: `ParseJSONByteArray` returns `ok = false` (and no record) exactly for the input
of length zero; for every non-empty input, also one made of white space only, it returns
`ok = true` together with a record. -/
theorem ParseJSONByteArray_ok_iff (now : Int) (b : Str) :
    ((∃ r, ParseJSONByteArray now b = .ok (r, false)) ↔ b.length = 0)
      ∧ (b.length = 0 → ParseJSONByteArray now b = .ok (none, false))
      ∧ (b.length ≠ 0 → ∃ pl, ParseJSONByteArray now b = .ok (some pl, true)) := by
  have hzero : b.length = 0 → ParseJSONByteArray now b = .ok (none, false) := by
    intro h; simp [ParseJSONByteArray, h]
  have hpos : b.length ≠ 0 → ∃ pl, ParseJSONByteArray now b = .ok (some pl, true) := by
    intro h
    have hne : b ≠ [] := fun hb => h (by simp [hb])
    cases hobj : isObject b with
    | false => exact ⟨_, parse_of_not_isObject now b hne hobj⟩
    | true =>
      obtain ⟨_, pl, _, _, _, _, _, hp⟩ := parse_of_isObject now b hobj
      exact ⟨pl, hp⟩
  refine ⟨⟨?_, fun h => ⟨none, hzero h⟩⟩, hzero, hpos⟩
  rintro ⟨r, hr⟩
  by_contra hne
  obtain ⟨pl, hp⟩ := hpos hne
  rw [hp] at hr
  simp at hr

/-- C1, on the line of three spaces: it is not empty, and it is parsed with `ok = true`. -/
theorem ParseJSONByteArray_ok_iff_witness :
    ∃ pl, ParseJSONByteArray 0 (lit "   ") = .ok (some pl, true) :=
  (ParseJSONByteArray_ok_iff 0 (lit "   ")).2.2 (by decide)

/-- C2: a non-empty input without a `{` byte, or without a `}` byte, gets the fallback
record: its level is the quoted string `"debug"`, its caller is `"user-code"`, and its
message is the input with the white space at its two ends trimmed, a contiguous part of
the input. -/
theorem ParseJSONByteArray_fallback (now : Int) (b : Str) (hne : b ≠ [])
    (h : 123 ∉ b ∨ 125 ∉ b) :
    ParseJSONByteArray now b = .ok (some (fallbackLog now b), true)
      ∧ (fallbackLog now b).GetLevel = lit "\"debug\""
      ∧ (fallbackLog now b).GetCaller = lit "\"user-code\""
      ∧ (fallbackLog now b).GetMsg = TrimSpace b
      ∧ ∃ l r, b = l ++ TrimSpace b ++ r := by
  have hobj : isObject b = false := by
    cases hb : isObject b with
    | false => rfl
    | true =>
      have := isObject_braces b hb
      rcases h with h | h
      · exact absurd this.1 h
      · exact absurd this.2 h
  obtain ⟨h1, h2, h3, _⟩ := fallbackLog_fields now b
  exact ⟨parse_of_not_isObject now b hne hobj, h1, h2, h3, TrimSpace_spec b⟩

/-- C2, on the line `   this is not json   `. -/
theorem ParseJSONByteArray_fallback_witness :
    ParseJSONByteArray 0 (lit "   this is not json   ")
        = .ok (some (fallbackLog 0 (lit "   this is not json   ")), true)
      ∧ (fallbackLog 0 (lit "   this is not json   ")).GetMsg = lit "this is not json" := by
  have h := ParseJSONByteArray_fallback 0 (lit "   this is not json   ") (by decide)
    (Or.inl (by decide))
  exact ⟨h.1, by decide⟩

/-- C3: round trip of a flat object. For pairs whose keys hold no `"` and are pairwise
distinct after trimming, and whose values hold no `,` and no `}`, the line
`{"k1":v1,...,"kn":vn}` is parsed with `ok = true` into the record whose keys are
exactly the trimmed keys and that maps each trimmed key to its trimmed value; trimming
removes bytes at the two ends only. -/
theorem flat_object_round_trip (now : Int) (kvs : List (Str × Str))
    (hk : ∀ p ∈ kvs, 34 ∉ p.1) (hd : (kvs.map (fun p => TrimSpace p.1)).Nodup)
    (hv : ∀ p ∈ kvs, 44 ∉ p.2 ∧ 125 ∉ p.2) :
    ParseJSONByteArray now (flatLine kvs) = .ok (some (trimmedPairs kvs), true)
      ∧ (∀ key, (parsedLog.get? (trimmedPairs kvs) key).isSome = true
          ↔ key ∈ kvs.map (fun p => TrimSpace p.1))
      ∧ (∀ p ∈ kvs, parsedLog.get? (trimmedPairs kvs) (TrimSpace p.1) = some (TrimSpace p.2))
      ∧ ∀ p ∈ kvs, ∃ l r, p.2 = l ++ TrimSpace p.2 ++ r := by
  have hkeys : (trimmedPairs kvs).map Prod.fst = kvs.map (fun p => TrimSpace p.1) := by
    simp [trimmedPairs]
  refine ⟨?_, ?_, ?_, fun p _ => TrimSpace_spec p.2⟩
  · rw [parse_flatLine now kvs hk hv, setAll_of_nodup kvs [] (by simpa [hkeys] using hd)]
    rfl
  · intro key
    rw [parsedLog.get?_isSome_iff, hkeys]
  · intro p hp
    apply parsedLog.get?_of_mem _ _ _ (by rw [hkeys]; exact hd)
    exact List.mem_map.mpr ⟨p, hp, rfl⟩

/-- C3, on the line `{" level":"info","ts": 15.5 ,"msg":"a: b/c.d"}`. -/
theorem flat_object_round_trip_witness :
    ParseJSONByteArray 0 (lit "\x7b\" level\":\"info\",\"ts\": 15.5 ,\"msg\":\"a: b/c.d\"\x7d")
      = .ok (some [(lit "level", lit "\"info\""), (lit "ts", lit "15.5"),
          (lit "msg", lit "\"a: b/c.d\"")], true) :=
  (flat_object_round_trip 0
    [(lit " level", lit "\"info\""), (lit "ts", lit " 15.5 "), (lit "msg", lit "\"a: b/c.d\"")]
    (by decide) (by decide) (by decide)).1

/-- C4: on the line `  {"a":1}`, which has two spaces before the opening brace and nothing
behind the closing brace, `ParseJSONByteArray` does not see the closing brace: the line is
not taken for an object, and the record is the fallback record with the text `{"a":1}` as
its message. -/
theorem leading_blanks_fallback (now : Int) :
    isObject (lit "  \x7b\"a\":1\x7d") = false
      ∧ ParseJSONByteArray now (lit "  \x7b\"a\":1\x7d")
          = .ok (some (fallbackLog now (lit "  \x7b\"a\":1\x7d")), true)
      ∧ (fallbackLog now (lit "  \x7b\"a\":1\x7d")).GetMsg = lit "\x7b\"a\":1\x7d"
      ∧ (fallbackLog now (lit "  \x7b\"a\":1\x7d")).GetLevel = lit "\"debug\"" :=
  ⟨by decide, parse_of_not_isObject now _ (by decide) (by decide),
    (fallbackLog_fields now _).2.2.1.trans (by decide), (fallbackLog_fields now _).1⟩

/-- C5, as stated, fails on the line `ab{"x":1}`: it is taken for an object and parsed
into the record with the one pair `x`, `1`, although its first byte that is not a space
or a tab is `a`. -/
theorem junk_before_brace_is_object :
    isObject (lit "ab\x7b\"x\":1\x7d") = true
      ∧ ParseJSONByteArray 0 (lit "ab\x7b\"x\":1\x7d") = .ok (some [(lit "x", lit "1")], true)
      ∧ (lit "ab\x7b\"x\":1\x7d").find? (fun b => b != 32 && b != 9) = some 97 := by
  decide

/-- C5, amended: a line that is taken for an object holds a `{` and a `}`: the key/value
scan starts at the first `{` of the line and is bounded by an index at which the line
holds a `}`, and the record is what that scan collects. A non-empty line that is not taken
for an object, as every line without a `{` or without a `}`, is given the fallback record,
with the whole trimmed line as its message. -/
theorem object_or_fallback (now : Int) (b : Str) :
    (isObject b = true →
      ∃ s pl, detect b = .ok s
        ∧ b[s.offset]? = some 123 ∧ (∀ k, k < s.offset → b[k]? ≠ some 123)
        ∧ b[s.byteLength]? = some 125
        ∧ kvLoop b s.byteLength (b.length + 1) s.offset [] [] = .ok pl
        ∧ ParseJSONByteArray now b = .ok (some pl, true))
      ∧ (b ≠ [] → isObject b = false →
          ParseJSONByteArray now b = .ok (some (fallbackLog now b), true)
            ∧ (fallbackLog now b).GetMsg = TrimSpace b)
      ∧ (123 ∉ b ∨ 125 ∉ b → isObject b = false) := by
  refine ⟨?_, ?_, ?_⟩
  · intro h
    obtain ⟨s, pl, hs, hfin, h1, h2, hkv, hp⟩ := parse_of_isObject now b h
    exact ⟨s, pl, hs, (hfin.2.1 h1).1, (hfin.2.1 h1).2, hfin.2.2.1 h2, hkv, hp⟩
  · intro hne h
    exact ⟨parse_of_not_isObject now b hne h, (fallbackLog_fields now b).2.2.1⟩
  · intro h
    cases hb : isObject b with
    | false => rfl
    | true =>
      have := isObject_braces b hb
      rcases h with h | h
      · exact absurd this.1 h
      · exact absurd this.2 h

/-- C5, amended, on the line `ab{"x":1}`: the scan starts at index 2 and is bounded by
index 8. -/
theorem object_or_fallback_witness :
    ∃ s pl, detect (lit "ab\x7b\"x\":1\x7d") = .ok s
      ∧ (lit "ab\x7b\"x\":1\x7d")[s.offset]? = some 123
      ∧ (∀ k, k < s.offset → (lit "ab\x7b\"x\":1\x7d")[k]? ≠ some 123)
      ∧ (lit "ab\x7b\"x\":1\x7d")[s.byteLength]? = some 125
      ∧ kvLoop (lit "ab\x7b\"x\":1\x7d") s.byteLength ((lit "ab\x7b\"x\":1\x7d").length + 1)
          s.offset [] [] = .ok pl
      ∧ ParseJSONByteArray 0 (lit "ab\x7b\"x\":1\x7d") = .ok (some pl, true) :=
  (object_or_fallback 0 (lit "ab\x7b\"x\":1\x7d")).1 (by decide)

/-- C6: when every required meta value of the filter is set, `filterJSON` returns, and it
returns `true` exactly when all four hold: the level criterion is empty or equals the
level of the record without its quote characters; the caller criterion is empty or a
substring of the caller of the record; the timestamp criterion is empty or the timestamp
of the record is not below it in the lexicographic order of strings; and every key
required by the filter is in the meta data of the record with exactly the required
value. -/
theorem filterJSON_iff (r : parsedLog) (f : LogFilter) (hset : ∀ p ∈ f.Meta, p.2 ≠ none) :
    ∃ b, filterJSON r f = .ok b
      ∧ (b = true ↔
          (f.Level = [] ∨ r.GetLevel.filter (fun c => c != 34) = f.Level)
            ∧ (f.Caller = [] ∨ f.Caller <:+: r.GetCaller)
            ∧ (f.Timestamp = [] ∨ ¬ List.Lex (fun x y : Nat => x < y) r.GetTimestamp f.Timestamp)
            ∧ ∀ k v, (k, some v) ∈ f.Meta → parsedLog.get? r.GetMeta k = some v) := by
  obtain ⟨b, hb, hiff⟩ := metaLoop_spec r.GetMeta
    (if f.Level ≠ [] ∧ Replace r.GetLevel (lit "\"") [] ≠ f.Level then false
      else if f.Caller ≠ [] ∧ ¬ (Contains r.GetCaller f.Caller = true) then false
      else if f.Timestamp ≠ [] ∧ strLess r.GetTimestamp f.Timestamp = true then false
      else true) f.Meta hset
  refine ⟨b, hb, ?_⟩
  rw [hiff, Replace_quote]
  simp only [Contains_iff, strLess_iff]
  by_cases h1 : f.Level = [] <;> by_cases h2 : f.Caller = [] <;>
    by_cases h3 : f.Timestamp = [] <;>
    by_cases h4 : r.GetLevel.filter (fun c => c != 34) = f.Level <;>
    by_cases h5 : f.Caller <:+: r.GetCaller <;>
    by_cases h6 : List.Lex (fun x y : Nat => x < y) r.GetTimestamp f.Timestamp <;>
    simp [h1, h2, h3, h4, h5, h6]

/-- C6, on a record with level `"info"` and `token` 1234 and the filter with level
`info` and the required `token` 1234: the record passes. -/
theorem filterJSON_iff_witness :
    ∃ b, filterJSON [(lit "level", lit "\"info\""), (lit "token", lit "1234")]
        { Level := lit "info", Timestamp := [], Caller := [],
          Meta := [(lit "token", some (lit "1234"))] } = .ok b
      ∧ (b = true ↔
          (lit "info" = [] ∨ (parsedLog.GetLevel [(lit "level", lit "\"info\""),
              (lit "token", lit "1234")]).filter (fun c => c != 34) = lit "info")
            ∧ (([] : Str) = [] ∨ ([] : Str) <:+: parsedLog.GetCaller
                [(lit "level", lit "\"info\""), (lit "token", lit "1234")])
            ∧ (([] : Str) = [] ∨ ¬ List.Lex (fun x y : Nat => x < y)
                (parsedLog.GetTimestamp [(lit "level", lit "\"info\""),
                  (lit "token", lit "1234")]) [])
            ∧ ∀ k v, (k, some v) ∈ [(lit "token", some (lit "1234"))] →
                parsedLog.get? (parsedLog.GetMeta [(lit "level", lit "\"info\""),
                  (lit "token", lit "1234")]) k = some v) :=
  filterJSON_iff [(lit "level", lit "\"info\""), (lit "token", lit "1234")]
    { Level := lit "info", Timestamp := [], Caller := [],
      Meta := [(lit "token", some (lit "1234"))] } (by decide)

/-- C7: `GenerateOutputString` returns an error exactly when the timestamp of the record
is not empty and its part before the first `.` is not a base-10 numeral of a signed
64-bit integer. A record whose timestamp is empty or absent never gives an error, and
whether an error is returned does not depend on the emoji flag. -/
theorem GenerateOutputString_error_iff (E : Env) (r : parsedLog) :
    (∀ emoji, returnsError (GenerateOutputString E r emoji)
        ↔ r.GetTimestamp ≠ [] ∧ ¬ validInt64 (splitFirstDot r.GetTimestamp))
      ∧ (r.GetTimestamp = [] → ∀ emoji, ¬ returnsError (GenerateOutputString E r emoji))
      ∧ (parsedLog.get? r (lit "ts") = none →
          ∀ emoji, ¬ returnsError (GenerateOutputString E r emoji))
      ∧ (returnsError (GenerateOutputString E r true)
          ↔ returnsError (GenerateOutputString E r false)) := by
  have hparse : (∃ e, ParseInt (splitFirstDot r.GetTimestamp) = .error e)
      ↔ ¬ validInt64 (splitFirstDot r.GetTimestamp) := by
    rw [← ParseInt_ok_iff]
    cases ParseInt (splitFirstDot r.GetTimestamp) with
    | error e => simp
    | ok z => simp
  have hmain : ∀ emoji, returnsError (GenerateOutputString E r emoji)
      ↔ r.GetTimestamp ≠ [] ∧ ¬ validInt64 (splitFirstDot r.GetTimestamp) := by
    intro emoji
    rw [GenerateOutputString_error, hparse]
  have hempty : r.GetTimestamp = [] →
      ∀ emoji, ¬ returnsError (GenerateOutputString E r emoji) := by
    intro h emoji he
    exact ((hmain emoji).mp he).1 h
  refine ⟨hmain, hempty, ?_, ?_⟩
  · intro h
    apply hempty
    simp [parsedLog.GetTimestamp, parsedLog.get, h]
  · rw [hmain true, hmain false]

/-- C7, on the record whose only field is the timestamp `12x.5`: both emoji modes return
an error. -/
theorem GenerateOutputString_error_iff_witness :
    returnsError (GenerateOutputString plainEnv [(lit "ts", lit "12x.5")] true)
      ∧ returnsError (GenerateOutputString plainEnv [(lit "ts", lit "12x.5")] false) := by
  have h := GenerateOutputString_error_iff plainEnv [(lit "ts", lit "12x.5")]
  have ht : returnsError (GenerateOutputString plainEnv [(lit "ts", lit "12x.5")] true) :=
    ⟨[], ⟨lit "12x", .ErrSyntax⟩, by decide⟩
  exact ⟨ht, h.2.2.2.mp ht⟩

/-- C8: the lines `{"stacktrace":}` and `{"stacktrace":x}` are parsed into records whose
`stacktrace` value has no byte and one byte, and on these records `GenerateOutputString`
aborts at the slice `st[1 : len(st)-1]`, in both emoji modes and with every styling. -/
theorem stacktrace_short_value_panics (E : Env) (emoji : Bool) :
    ParseJSONByteArray 0 (lit "\x7b\"stacktrace\":\x7d")
        = .ok (some [(lit "stacktrace", [])], true)
      ∧ GenerateOutputString E [(lit "stacktrace", [])] emoji = .panic
      ∧ ParseJSONByteArray 0 (lit "\x7b\"stacktrace\":x\x7d")
        = .ok (some [(lit "stacktrace", lit "x")], true)
      ∧ GenerateOutputString E [(lit "stacktrace", lit "x")] emoji = .panic := by
  refine ⟨by decide, ?_, by decide, ?_⟩
  · cases emoji <;> rfl
  · cases emoji <;> rfl

/-- C9: for a record that the filter accepts, `PrettyPrint` writes exactly the string of
`GenerateOutputString` and returns nil when that call succeeds, and writes nothing and
returns the error when that call fails, in both emoji modes. The filter without criteria
accepts every record. -/
theorem PrettyPrint_accepted (E : Env) (w : Str) (r : parsedLog) (f : LogFilter)
    (emoji : Bool) (hacc : filterJSON r f = .ok true) :
    (∀ s, GenerateOutputString E r emoji = .ok (s, none) →
        PrettyPrint E w r f emoji = .ok (w ++ s, none))
      ∧ (∀ s e, GenerateOutputString E r emoji = .ok (s, some e) →
          PrettyPrint E w r f emoji = .ok (w, some e))
      ∧ filterJSON r emptyFilter = .ok true := by
  refine ⟨?_, ?_, rfl⟩
  · intro s hs
    simp [PrettyPrint, hacc, hs, Outcome.bind]
  · intro s e hs
    simp [PrettyPrint, hacc, hs, Outcome.bind]

/-- C9, on the record with the message `hi` and the filter without criteria, without
emoji: the line ` hi` is written. -/
theorem PrettyPrint_accepted_witness :
    PrettyPrint plainEnv [] [(lit "msg", lit "hi")] emptyFilter false
      = .ok ([] ++ lit " hi\n", none) :=
  (PrettyPrint_accepted plainEnv [] [(lit "msg", lit "hi")] emptyFilter false rfl).1
    (lit " hi\n") (by decide)

/-- C10: for a record that the filter rejects, `PrettyPrint` writes nothing and returns
nil, in both emoji modes and whatever the timestamp of the record is: the renderer is not
called. -/
theorem PrettyPrint_rejected (E : Env) (w : Str) (r : parsedLog) (f : LogFilter)
    (emoji : Bool) (hrej : filterJSON r f = .ok false) :
    PrettyPrint E w r f emoji = .ok (w, none) := by
  simp [PrettyPrint, hrej, Outcome.bind]

/-- C10, on a record with the malformed timestamp `abc` and the level `"info"`, and the
filter for the level `debug`: nothing is written, although the renderer would return an
error for this record. -/
theorem PrettyPrint_rejected_witness :
    PrettyPrint plainEnv (lit "out") [(lit "level", lit "\"info\""), (lit "ts", lit "abc")]
        { Level := lit "debug", Timestamp := [], Caller := [], Meta := [] } true
        = .ok (lit "out", none)
      ∧ returnsError (GenerateOutputString plainEnv
          [(lit "level", lit "\"info\""), (lit "ts", lit "abc")] true) :=
  ⟨PrettyPrint_rejected plainEnv (lit "out")
      [(lit "level", lit "\"info\""), (lit "ts", lit "abc")]
      { Level := lit "debug", Timestamp := [], Caller := [], Meta := [] } true (by decide),
    ⟨[], ⟨lit "abc", .ErrSyntax⟩, by decide⟩⟩

/-! ## More on records as maps -/

theorem parsedLog.get?_set (pl : parsedLog) (k v k1 : Str) :
    parsedLog.get? (parsedLog.set pl k v) k1 = if k = k1 then some v else parsedLog.get? pl k1 := by
  induction pl with
  | nil => simp [parsedLog.set, parsedLog.get?]
  | cons a pl ih =>
    obtain ⟨k0, v0⟩ := a
    by_cases h0 : k0 = k
    · subst h0
      by_cases h1 : k0 = k1 <;> simp [parsedLog.set, parsedLog.get?, h1]
    · by_cases h1 : k0 = k1
      · subst h1
        have h2 : ¬ k = k0 := fun e => h0 e.symm
        simp [parsedLog.set, parsedLog.get?, h0, h2]
      · simp [parsedLog.set, parsedLog.get?, h0, h1, ih]

theorem parsedLog.get_set (pl : parsedLog) (k v k1 : Str) :
    parsedLog.get (parsedLog.set pl k v) k1 = if k = k1 then v else parsedLog.get pl k1 := by
  unfold parsedLog.get
  rw [parsedLog.get?_set]
  split <;> rfl

theorem GetMeta_foldl (pl : parsedLog) (k : Str) (l : List (Str × Str)) :
    ∀ m : parsedLog,
      parsedLog.get? (l.foldl (fun m p =>
          if p.1 ∈ wellKnown then m else parsedLog.set m p.1 (parsedLog.get pl p.1)) m) k
        = if k ∉ wellKnown ∧ k ∈ l.map Prod.fst then some (parsedLog.get pl k)
          else parsedLog.get? m k := by
  induction l with
  | nil => intro m; simp
  | cons p l ih =>
    intro m
    rw [List.foldl_cons, ih]
    by_cases hk : k ∈ wellKnown
    · have h1 : ¬ (k ∉ wellKnown ∧ k ∈ l.map Prod.fst) := fun h => h.1 hk
      have h2 : ¬ (k ∉ wellKnown ∧ k ∈ (p :: l).map Prod.fst) := fun h => h.1 hk
      rw [if_neg h1, if_neg h2]
      by_cases hp : p.1 ∈ wellKnown
      · rw [if_pos hp]
      · have hne : ¬ p.1 = k := fun e => hp (e ▸ hk)
        rw [if_neg hp, parsedLog.get?_set, if_neg hne]
    · by_cases hl : k ∈ l.map Prod.fst
      · have h1 : k ∉ wellKnown ∧ k ∈ l.map Prod.fst := ⟨hk, hl⟩
        have h2 : k ∉ wellKnown ∧ k ∈ (p :: l).map Prod.fst :=
          ⟨hk, by simp only [List.map_cons, List.mem_cons]; exact Or.inr hl⟩
        rw [if_pos h1, if_pos h2]
      · have h1 : ¬ (k ∉ wellKnown ∧ k ∈ l.map Prod.fst) := fun h => hl h.2
        rw [if_neg h1]
        by_cases hpk : p.1 = k
        · have hp : p.1 ∉ wellKnown := hpk ▸ hk
          have h2 : k ∉ wellKnown ∧ k ∈ (p :: l).map Prod.fst :=
            ⟨hk, by simp only [List.map_cons, List.mem_cons]; exact Or.inl hpk.symm⟩
          rw [if_neg hp, parsedLog.get?_set, if_pos hpk, if_pos h2, hpk]
        · have h2 : ¬ (k ∉ wellKnown ∧ k ∈ (p :: l).map Prod.fst) := by
            rintro ⟨_, h⟩
            simp only [List.map_cons, List.mem_cons] at h
            rcases h with h | h
            · exact hpk h.symm
            · exact hl h
          rw [if_neg h2]
          by_cases hp : p.1 ∈ wellKnown
          · rw [if_pos hp]
          · rw [if_neg hp, parsedLog.get?_set, if_neg hpk]

/-- The meta data of a record hold the pairs of the record whose key is not one of the
five field names. -/
theorem GetMeta_get? (pl : parsedLog) (k : Str) :
    parsedLog.get? pl.GetMeta k = if k ∈ wellKnown then none else parsedLog.get? pl k := by
  unfold parsedLog.GetMeta
  rw [GetMeta_foldl]
  by_cases hk : k ∈ wellKnown
  · simp [hk, parsedLog.get?]
  · by_cases hl : k ∈ pl.map Prod.fst
    · rw [if_pos ⟨hk, hl⟩, if_neg hk]
      have hs := (parsedLog.get?_isSome_iff pl k).mpr hl
      cases hg : parsedLog.get? pl k with
      | none => rw [hg] at hs; simp at hs
      | some v => simp [parsedLog.get, hg]
    · have h1 : ¬ (k ∉ wellKnown ∧ k ∈ pl.map Prod.fst) := fun h => hl h.2
      rw [if_neg h1, if_neg hk, parsedLog.get?_eq_none pl k hl]
      rfl

theorem setAll_append (pl : parsedLog) (l1 l2 : List (Str × Str)) :
    setAll pl (l1 ++ l2) = setAll (setAll pl l1) l2 := by
  simp [setAll, List.foldl_append]

theorem setAll_get?_other (key : Str) (post : List (Str × Str)) :
    ∀ pl : parsedLog, (∀ q ∈ post, TrimSpace q.1 ≠ key) →
      parsedLog.get? (setAll pl post) key = parsedLog.get? pl key := by
  induction post with
  | nil => intro pl _; rfl
  | cons q post ih =>
    intro pl h
    show parsedLog.get? (setAll (parsedLog.set pl (TrimSpace q.1) (TrimSpace q.2)) post) key = _
    rw [ih _ (fun r hr => h r (List.mem_cons_of_mem _ hr)), parsedLog.get?_set,
      if_neg (h q (List.mem_cons_self _ _))]

/-- C12: last write wins. In a flat object line (keys without `"`, values without `,`
and `}`) the record maps the stored key of a pair to the trimmed value of that pair when
no later pair of the line has the same stored key; so for a key that occurs several
times the value of its last occurrence is kept, as in `{"k":v1,"k":v2}`. -/
theorem last_write_wins (now : Int) (pre post : List (Str × Str)) (p : Str × Str)
    (hk : ∀ q ∈ pre ++ p :: post, 34 ∉ q.1)
    (hv : ∀ q ∈ pre ++ p :: post, 44 ∉ q.2 ∧ 125 ∉ q.2)
    (hlast : ∀ q ∈ post, TrimSpace q.1 ≠ TrimSpace p.1) :
    ∃ pl, ParseJSONByteArray now (flatLine (pre ++ p :: post)) = .ok (some pl, true)
      ∧ parsedLog.get? pl (TrimSpace p.1) = some (TrimSpace p.2) := by
  refine ⟨setAll [] (pre ++ p :: post), parse_flatLine now _ hk hv, ?_⟩
  rw [setAll_append]
  show parsedLog.get? (setAll (parsedLog.set (setAll [] pre) (TrimSpace p.1) (TrimSpace p.2))
    post) (TrimSpace p.1) = _
  rw [setAll_get?_other _ post _ hlast, parsedLog.get?_set, if_pos rfl]

/-- C12, on the line `{"k":1,"k":2}`: the record maps `k` to `2`. -/
theorem last_write_wins_witness :
    ∃ pl, ParseJSONByteArray 0 (flatLine ([(lit "k", lit "1")] ++ (lit "k", lit "2") :: []))
        = .ok (some pl, true)
      ∧ parsedLog.get? pl (TrimSpace (lit "k")) = some (TrimSpace (lit "2")) :=
  last_write_wins 0 [(lit "k", lit "1")] [] (lit "k", lit "2") (by decide) (by decide)
    (by decide)

/-- C13: `GetMsg` returns the value stored under `msg` whenever the key `msg` is present,
also when a key `message` is present and also when that value is the empty string;
otherwise the value under `message` when that key is present; otherwise the empty
string. -/
theorem GetMsg_spec (r : parsedLog) :
    (∀ v, parsedLog.get? r (lit "msg") = some v → r.GetMsg = v)
      ∧ (parsedLog.get? r (lit "msg") = none →
          ∀ v, parsedLog.get? r (lit "message") = some v → r.GetMsg = v)
      ∧ (parsedLog.get? r (lit "msg") = none → parsedLog.get? r (lit "message") = none →
          r.GetMsg = []) := by
  refine ⟨?_, ?_, ?_⟩
  · intro v h; simp [parsedLog.GetMsg, h]
  · intro h v h2; simp [parsedLog.GetMsg, h, h2]
  · intro h h2; simp [parsedLog.GetMsg, h, h2]

/-- C13, on a record with an empty `msg` and a `message`: the empty `msg` is returned. -/
theorem GetMsg_spec_witness :
    parsedLog.GetMsg [(lit "message", lit "other"), (lit "msg", [])] = [] :=
  (GetMsg_spec [(lit "message", lit "other"), (lit "msg", [])]).1 [] (by decide)

/-- C14: the meta data of a record contain a key exactly when the record contains it and
it is none of `level`, `ts`, `caller`, `msg`, `message`, and they map such a key to the
value that the record has for it. (`GetMeta` builds a new map; the record is an argument
that is only read.) -/
theorem GetMeta_spec (r : parsedLog) (k : Str) :
    ((parsedLog.get? r.GetMeta k).isSome = true ↔
        (parsedLog.get? r k).isSome = true ∧ k ≠ lit "level" ∧ k ≠ lit "ts"
          ∧ k ≠ lit "caller" ∧ k ≠ lit "msg" ∧ k ≠ lit "message")
      ∧ ((parsedLog.get? r.GetMeta k).isSome = true →
          parsedLog.get? r.GetMeta k = parsedLog.get? r k) := by
  have hwk : k ∈ wellKnown ↔ ¬ (k ≠ lit "level" ∧ k ≠ lit "ts" ∧ k ≠ lit "caller"
      ∧ k ≠ lit "msg" ∧ k ≠ lit "message") := by
    simp only [wellKnown, List.mem_cons, List.mem_singleton, List.not_mem_nil, or_false]
    tauto
  rw [GetMeta_get?]
  by_cases h : k ∈ wellKnown
  · have h2 := hwk.mp h
    simp [h, h2]
  · have h2 : k ≠ lit "level" ∧ k ≠ lit "ts" ∧ k ≠ lit "caller" ∧ k ≠ lit "msg"
        ∧ k ≠ lit "message" := by
      by_contra hc
      exact h (hwk.mpr hc)
    simp [h, h2]

/-- C14, on a record with the fields `level` and `user`: `user` is meta data with its
value, `level` is not. -/
theorem GetMeta_spec_witness :
    parsedLog.get? (parsedLog.GetMeta [(lit "level", lit "\"info\""), (lit "user", lit "\"a\"")])
        (lit "user")
      = parsedLog.get? [(lit "level", lit "\"info\""), (lit "user", lit "\"a\"")] (lit "user") :=
  (GetMeta_spec [(lit "level", lit "\"info\""), (lit "user", lit "\"a\"")] (lit "user")).2
    (by decide)

/-! ## The shape of the rendered string -/

/-- `GenerateOutputString` in terms of the main line and the meta data block. -/
theorem GenerateOutputString_eq (E : Env) (pj : parsedLog) (emoji : Bool) :
    GenerateOutputString E pj emoji =
      if pj.GetTimestamp ≠ [] then
        match ParseInt (splitFirstDot pj.GetTimestamp) with
        | .error errParse => .ok ([], some errParse)
        | .ok _ => (metaBlock E pj (mainLine E pj emoji)).bind fun s5 => .ok (s5, none)
      else (metaBlock E pj (mainLine E pj emoji)).bind fun s5 => .ok (s5, none) := by
  unfold GenerateOutputString mainLine tsPart
  by_cases hts : pj.GetTimestamp = []
  · simp [hts]
  · simp only [ne_eq, hts, not_false_eq_true, if_true]
    cases ParseInt (splitFirstDot pj.GetTimestamp) with
    | error e => rfl
    | ok z => rfl

/-- A call that does not return an error renders the meta data block behind the main
line. -/
theorem GenerateOutputString_of_not_error (E : Env) (pj : parsedLog) (emoji : Bool)
    (h : ¬ returnsError (GenerateOutputString E pj emoji)) :
    GenerateOutputString E pj emoji
      = (metaBlock E pj (mainLine E pj emoji)).bind fun s5 => .ok (s5, none) := by
  rw [GenerateOutputString_eq] at h ⊢
  by_cases hts : pj.GetTimestamp = []
  · simp [hts]
  · simp only [ne_eq, hts, not_false_eq_true, if_true] at h ⊢
    cases hp : ParseInt (splitFirstDot pj.GetTimestamp) with
    | error e =>
      rw [hp] at h
      exact absurd ⟨[], e, rfl⟩ h
    | ok z => rfl

theorem metaBlock_extends (E : Env) (pj : parsedLog) (s s1 : Str)
    (h : metaBlock E pj s = .ok s1) : ∃ tail, s1 = s ++ tail := by
  unfold metaBlock at h
  split at h
  · obtain ⟨m0, _, h2⟩ := Outcome.bind_eq_ok h
    cases h2
    exact ⟨_, by rw [List.append_assoc]⟩
  · cases h
    exact ⟨[], by simp⟩

/-! ## Replacements inside a quoted string -/

theorem isPrefixOf_append_singleton (x : Nat) (old : Str) (hx : x ∉ old) :
    ∀ l : Str, old.isPrefixOf (l ++ [x]) = old.isPrefixOf l := by
  induction old with
  | nil => intro l; simp
  | cons a old ih =>
    intro l
    have ha : ¬ a = x := fun e => hx (by simp [e])
    have hx2 : x ∉ old := fun h => hx (by simp [h])
    cases l with
    | nil => simp [List.isPrefixOf, ha]
    | cons b l => simp [List.isPrefixOf, ih hx2]

theorem isPrefixOf_length_le (old l : Str) (h : old.isPrefixOf l = true) :
    old.length ≤ l.length := by
  rw [ List.isPrefixOf_iff_prefix] at h
  exact h.length_le

theorem replaceFrom_append_singleton (x : Nat) (old new : Str) (hne : old ≠ [])
    (hx : x ∉ old) :
    ∀ (cs : Str) (k : Nat), k ≤ cs.length →
      replaceFrom old new k (cs ++ [x]) = replaceFrom old new k cs ++ [x] := by
  intro cs
  induction cs with
  | nil =>
    intro k hk
    have hk0 : k = 0 := by simpa using hk
    subst hk0
    have hp : old.isPrefixOf [x] = false := by
      have := isPrefixOf_append_singleton x old hx []
      simp only [List.nil_append] at this
      rw [this]
      cases old with
      | nil => exact absurd rfl hne
      | cons a old => rfl
    simp [replaceFrom, hp]
  | cons c cs ih =>
    intro k hk
    cases k with
    | succ j =>
      simp only [List.cons_append, replaceFrom, List.append_eq]
      exact ih j (by simpa using hk)
    | zero =>
      have hp := isPrefixOf_append_singleton x old hx (c :: cs)
      simp only [List.cons_append] at hp
      simp only [List.cons_append, replaceFrom, List.append_eq, hp]
      by_cases hm : old.isPrefixOf (c :: cs) = true
      · have hlen := isPrefixOf_length_le old (c :: cs) hm
        simp only [List.length_cons] at hlen
        rw [if_pos hm, if_pos hm, ih (old.length - 1) (by omega), List.append_assoc]
      · rw [if_neg hm, if_neg hm, ih 0 (Nat.zero_le _)]
        rfl

theorem replaceFrom_cons_other (x : Nat) (old new : Str) (hne : old ≠ []) (hx : x ∉ old)
    (cs : Str) : replaceFrom old new 0 (x :: cs) = x :: replaceFrom old new 0 cs := by
  cases old with
  | nil => exact absurd rfl hne
  | cons a old =>
    have ha : ¬ a = x := fun e => hx (by simp [e])
    simp [replaceFrom, List.isPrefixOf, ha]

/-- A replacement whose pattern holds no quote leaves the quotes around a string in
place and works on the text between them. -/
theorem Replace_quoted (old new m : Str) (hne : old ≠ []) (hx : 34 ∉ old) :
    Replace ([34] ++ m ++ [34]) old new = [34] ++ Replace m old new ++ [34] := by
  unfold Replace
  rw [List.append_assoc, List.singleton_append, replaceFrom_cons_other 34 old new hne hx,
    replaceFrom_append_singleton 34 old new hne hx m 0 (Nat.zero_le _)]
  rfl

theorem sliceInner_quoted (x : Str) : sliceInner ([34] ++ x ++ [34]) = .ok x := by
  have h : ¬ ([34] ++ x ++ [34]).length < 2 := by
    simp only [List.length_append, List.length_cons, List.length_nil]; omega
  unfold sliceInner
  rw [if_neg h]
  simp

theorem reformat_quoted (m : Str) : reformat ([34] ++ m ++ [34]) = [34] ++ reformat m ++ [34] := by
  unfold reformat
  rw [Replace_quoted _ _ m (by decide) (by decide),
    Replace_quoted _ _ _ (by decide) (by decide)]

theorem stacktraceEntry_quoted (E : Env) (m : Str) :
    stacktraceEntry E ([34] ++ m ++ [34]) = .ok (stacktraceText E (reformat m)) := by
  have h := reformat_quoted m
  unfold reformat at h
  unfold stacktraceEntry
  simp only [h]
  rw [sliceInner_quoted]
  rfl

theorem metaEntries_filter (E : Env) (allMeta : parsedLog) (l : List (Str × Str)) :
    metaEntries E allMeta l
      = metaEntries E allMeta (l.filter (fun p => decide (p.1 ≠ lit "stacktrace"))) := by
  have e : (fun p : Str × Str => decide (p.1 ≠ lit "stacktrace"))
      = (fun p => !decide (p.1 = lit "stacktrace")) := by
    funext p; simp
  induction l with
  | nil => rfl
  | cons p l ih =>
    obtain ⟨key, v⟩ := p
    rw [e] at ih ⊢
    by_cases hk : key = lit "stacktrace"
    · simp [metaEntries, hk, ← ih]
    · simp [metaEntries, hk, ← ih]

/-- C11: for a record whose `stacktrace` meta value is `"` ++ m ++ `"`, a rendering that
does not fail with the timestamp error is the main line, then the stacktrace entry, then
the entries of the other meta keys, then a newline. The body of the stacktrace entry is
`m`, without the outer quotes, with every `\n\t` replaced by newline, tab, tab, `> ` and
then every remaining `\n` replaced by newline, tab, tab, space; stripping the outer
quotes after the replacements, as the code does, gives the same text as stripping them
before. -/
theorem stacktrace_entry (E : Env) (r : parsedLog) (emoji : Bool) (m : Str)
    (hst : parsedLog.get? r.GetMeta (lit "stacktrace") = some ([34] ++ m ++ [34])) :
    (¬ returnsError (GenerateOutputString E r emoji) →
        GenerateOutputString E r emoji
          = .ok (mainLine E r emoji
              ++ (stacktraceText E (reformat m)
                ++ metaEntries E r.GetMeta
                    (r.GetMeta.filter (fun p => decide (p.1 ≠ lit "stacktrace"))))
              ++ lit "\n", none))
      ∧ sliceInner (reformat ([34] ++ m ++ [34])) = .ok (reformat m) := by
  refine ⟨?_, by rw [reformat_quoted, sliceInner_quoted]⟩
  intro hne
  rw [GenerateOutputString_of_not_error E r emoji hne]
  have hlen : r.GetMeta.length > 0 := by
    cases hm : r.GetMeta with
    | nil => rw [hm] at hst; simp [parsedLog.get?] at hst
    | cons a l => simp
  unfold metaBlock
  rw [if_pos hlen]
  simp only [hst, stacktraceEntry_quoted, Outcome.bind_ok, ← metaEntries_filter]

/-- C11, on the record with the stacktrace `"a\n\tb\nc"`, without emoji. -/
theorem stacktrace_entry_witness :
    GenerateOutputString plainEnv [(lit "stacktrace", lit "\"a\\n\\tb\\nc\"")] false
      = .ok (lit " \n\t%q[stacktrace]: \n\t\t> %s[a\n\t\t> b\n\t\t c]\n\n", none) := by
  have hne : ¬ returnsError
      (GenerateOutputString plainEnv [(lit "stacktrace", lit "\"a\\n\\tb\\nc\"")] false) := by
    rintro ⟨s, e, he⟩
    have hg : GenerateOutputString plainEnv [(lit "stacktrace", lit "\"a\\n\\tb\\nc\"")] false
        = .ok (lit " \n\t%q[stacktrace]: \n\t\t> %s[a\n\t\t> b\n\t\t c]\n\n", none) := by
      decide
    rw [hg] at he
    cases he
  have h := (stacktrace_entry plainEnv [(lit "stacktrace", lit "\"a\\n\\tb\\nc\"")] false
    (lit "a\\n\\tb\\nc") (by decide)).1 hne
  rw [h]
  decide

/-- C17: in every rendering that succeeds, the message segment follows the timestamp,
level and caller segments and is followed by the newline of the main line; it is chosen
by the level without its quote characters alone, not by the emoji flag: the message goes
through the yellow function when that level is `debug` or `warn`, through the red function
when it is `fatal`, `error`, `dpanic` or `panic`, and is appended as it is for every other
level, as for an absent level and for `ERROR`. -/
theorem message_colour (E : Env) (r : parsedLog) (emoji : Bool) :
    (∀ s, GenerateOutputString E r emoji = .ok (s, none) →
        ∃ tail, s = tsPart E r emoji ++ levelSegment E emoji r.GetLevel
            ++ callerSegment E emoji r.GetCaller
            ++ msgSegment E (r.GetLevel.filter (fun c => c != 34)) r.GetMsg ++ lit "\n" ++ tail)
      ∧ (∀ l msg, l = lit "debug" ∨ l = lit "warn" →
          msgSegment E l msg = lit " " ++ E.fgYellow msg [])
      ∧ (∀ l msg, l = lit "fatal" ∨ l = lit "error" ∨ l = lit "dpanic" ∨ l = lit "panic" →
          msgSegment E l msg = lit " " ++ E.fgRed msg [])
      ∧ (∀ l msg, l ≠ lit "debug" → l ≠ lit "warn" → l ≠ lit "fatal" → l ≠ lit "error" →
          l ≠ lit "dpanic" → l ≠ lit "panic" → msgSegment E l msg = lit " " ++ msg)
      ∧ (parsedLog.get? r (lit "level") = none →
          msgSegment E (r.GetLevel.filter (fun c => c != 34)) r.GetMsg = lit " " ++ r.GetMsg)
      ∧ (∀ msg, msgSegment E ((lit "\"ERROR\"").filter (fun c => c != 34)) msg = lit " " ++ msg) := by
  have hother : ∀ l msg, l ≠ lit "debug" → l ≠ lit "warn" → l ≠ lit "fatal" →
      l ≠ lit "error" → l ≠ lit "dpanic" → l ≠ lit "panic" →
      msgSegment E l msg = lit " " ++ msg := by
    intro l msg h1 h2 h3 h4 h5 h6
    simp [msgSegment, h1, h2, h3, h4, h5, h6]
  refine ⟨?_, ?_, ?_, hother, ?_, ?_⟩
  · intro s hs
    have hne : ¬ returnsError (GenerateOutputString E r emoji) := by
      rintro ⟨s1, e, he⟩
      rw [hs] at he
      cases he
    rw [GenerateOutputString_of_not_error E r emoji hne] at hs
    obtain ⟨s5, hmb, h2⟩ := Outcome.bind_eq_ok hs
    cases h2
    obtain ⟨tail, ht⟩ := metaBlock_extends E r _ _ hmb
    refine ⟨tail, ?_⟩
    rw [ht, mainLine, Replace_quote]
  · intro l msg h
    simp [msgSegment, h]
  · intro l msg h
    have hn : ¬ (l = lit "debug" ∨ l = lit "warn") := by
      rintro (h1 | h1) <;> rcases h with h | h | h | h <;> (rw [h] at h1; revert h1; decide)
    simp [msgSegment, hn, h]
  · intro h
    have hl : r.GetLevel = [] := by simp [parsedLog.GetLevel, parsedLog.get, h]
    rw [hl]
    exact hother _ _ (by decide) (by decide) (by decide) (by decide) (by decide) (by decide)
  · intro msg
    exact hother _ _ (by decide) (by decide) (by decide) (by decide) (by decide) (by decide)

/-- C17, on the record with level `"warn"` and message `m`, without emoji. -/
theorem message_colour_witness :
    ∃ tail, lit " %-8s[WARN] m\n"
      = tsPart plainEnv [(lit "level", lit "\"warn\""), (lit "msg", lit "m")] false
        ++ levelSegment plainEnv false
            (parsedLog.GetLevel [(lit "level", lit "\"warn\""), (lit "msg", lit "m")])
        ++ callerSegment plainEnv false
            (parsedLog.GetCaller [(lit "level", lit "\"warn\""), (lit "msg", lit "m")])
        ++ msgSegment plainEnv
            ((parsedLog.GetLevel [(lit "level", lit "\"warn\""), (lit "msg", lit "m")]).filter
              (fun c => c != 34))
            (parsedLog.GetMsg [(lit "level", lit "\"warn\""), (lit "msg", lit "m")])
        ++ lit "\n" ++ tail :=
  (message_colour plainEnv [(lit "level", lit "\"warn\""), (lit "msg", lit "m")] false).1
    (lit " %-8s[WARN] m\n") (by decide)

/-! ## The timestamp is read up to its first dot -/

theorem splitFirstDot_append (a b : Str) (ha : 46 ∉ a) :
    splitFirstDot (a ++ [46] ++ b) = a := by
  unfold splitFirstDot
  induction a with
  | nil => simp [List.takeWhile]
  | cons c a ih =>
    have hc : ¬ c = 46 := fun e => ha (by simp [e])
    have ha2 : 46 ∉ a := fun h => ha (by simp [h])
    have ih2 := ih ha2
    simp only [List.append_assoc, List.singleton_append] at ih2
    have hb : (c != 46) = true := by simpa using hc
    simp [List.takeWhile, hb, ih2]

theorem splitFirstDot_self (a : Str) (ha : 46 ∉ a) : splitFirstDot a = a := by
  unfold splitFirstDot
  induction a with
  | nil => rfl
  | cons c a ih =>
    have hc : ¬ c = 46 := fun e => ha (by simp [e])
    have ha2 : 46 ∉ a := fun h => ha (by simp [h])
    have hb : (c != 46) = true := by simpa using hc
    simp [List.takeWhile, hb, ih ha2]

theorem foldl_set_wellKnown (F : parsedLog → Str × Str → parsedLog)
    (hF : ∀ m p, p.1 ∈ wellKnown → F m p = m) (k v : Str) (hk : k ∈ wellKnown) :
    ∀ (l : parsedLog) (m : parsedLog), (parsedLog.set l k v).foldl F m = l.foldl F m := by
  intro l
  induction l with
  | nil => intro m; simp [parsedLog.set, hF m (k, v) hk]
  | cons a l ih =>
    intro m
    obtain ⟨k0, v0⟩ := a
    by_cases h0 : k0 = k
    · subst h0
      simp [parsedLog.set, hF m (k0, v) hk, hF m (k0, v0) hk]
    · simp [parsedLog.set, h0, ih]

/-- Storing a value under one of the five field names does not change the meta data. -/
theorem GetMeta_set_wellKnown (r : parsedLog) (k v : Str) (hk : k ∈ wellKnown) :
    (parsedLog.set r k v).GetMeta = r.GetMeta := by
  unfold parsedLog.GetMeta
  have hfun : (fun (m : parsedLog) (p : Str × Str) =>
        if p.1 ∈ wellKnown then m
        else parsedLog.set m p.1 (parsedLog.get (parsedLog.set r k v) p.1))
      = (fun (m : parsedLog) (p : Str × Str) =>
        if p.1 ∈ wellKnown then m else parsedLog.set m p.1 (parsedLog.get r p.1)) := by
    funext m p
    by_cases hp : p.1 ∈ wellKnown
    · simp [hp]
    · have hne : ¬ k = p.1 := fun e => hp (e ▸ hk)
      simp [hp, parsedLog.get_set, hne]
  rw [hfun]
  exact foldl_set_wellKnown _ (fun m p hp => by simp [hp]) k v hk r []

theorem GetMsg_set_ts (r : parsedLog) (v : Str) :
    (parsedLog.set r (lit "ts") v).GetMsg = r.GetMsg := by
  unfold parsedLog.GetMsg
  rw [parsedLog.get?_set, parsedLog.get?_set, if_neg (by decide), if_neg (by decide)]

/-- C18: only the part of the timestamp before its first `.` is used. For every record,
every non-empty `a` without `.` and every `b`, rendering the record with the timestamp
`a.b` gives the same result (the same string, the same error, or the same abort) as
rendering it with the timestamp `a`, in both emoji modes. -/
theorem fraction_ignored (E : Env) (r : parsedLog) (a b : Str) (emoji : Bool)
    (hne : a ≠ []) (hdot : 46 ∉ a) :
    GenerateOutputString E (parsedLog.set r (lit "ts") (a ++ [46] ++ b)) emoji
      = GenerateOutputString E (parsedLog.set r (lit "ts") a) emoji := by
  have hwk : lit "ts" ∈ wellKnown := by decide
  have hts : ∀ v, (parsedLog.set r (lit "ts") v).GetTimestamp = v := by
    intro v; simp [parsedLog.GetTimestamp, parsedLog.get_set]
  have hlevel : ∀ v, (parsedLog.set r (lit "ts") v).GetLevel = r.GetLevel := by
    intro v
    unfold parsedLog.GetLevel
    rw [parsedLog.get_set, if_neg (by decide)]
  have hcaller : ∀ v, (parsedLog.set r (lit "ts") v).GetCaller = r.GetCaller := by
    intro v
    unfold parsedLog.GetCaller
    rw [parsedLog.get_set, if_neg (by decide)]
  have hne2 : a ++ [46] ++ b ≠ [] := by
    cases a with
    | nil => exact absurd rfl hne
    | cons c a => simp
  unfold GenerateOutputString metaBlock
  simp only [hts, hlevel, hcaller, GetMsg_set_ts, GetMeta_set_wellKnown _ _ _ hwk,
    splitFirstDot_append a b hdot, splitFirstDot_self a hdot, ne_eq, hne, hne2,
    not_false_eq_true, if_true]

/-- C18, on the record with level `"info"`: the timestamps `15.5` and `15` render
alike. -/
theorem fraction_ignored_witness :
    GenerateOutputString plainEnv
        (parsedLog.set [(lit "level", lit "\"info\"")] (lit "ts") (lit "15" ++ [46] ++ lit "5"))
        false
      = GenerateOutputString plainEnv
        (parsedLog.set [(lit "level", lit "\"info\"")] (lit "ts") (lit "15")) false :=
  fraction_ignored plainEnv [(lit "level", lit "\"info\"")] (lit "15") (lit "5") false
    (by decide) (by decide)

/-! ## The decimal rendering of an integer -/

theorem digitChar_toNat (m : Nat) (h : m < 10) : (Nat.digitChar m).toNat = 48 + m := by
  interval_cases m <;> rfl

theorem lit_repr (n : Nat) : lit (Nat.repr n) = (Nat.toDigits 10 n).map Char.toNat := rfl

theorem toDigitsCore_digits (fuel : Nat) :
    ∀ (n : Nat) (ds : List Char), (∀ c ∈ ds, 48 ≤ c.toNat ∧ c.toNat ≤ 57) →
      ∀ c ∈ Nat.toDigitsCore 10 fuel n ds, 48 ≤ c.toNat ∧ c.toNat ≤ 57 := by
  induction fuel with
  | zero => intro n ds h; simpa [Nat.toDigitsCore] using h
  | succ f ih =>
    intro n ds h
    have hd : 48 ≤ (Nat.digitChar (n % 10)).toNat ∧ (Nat.digitChar (n % 10)).toNat ≤ 57 := by
      rw [digitChar_toNat _ (Nat.mod_lt _ (by decide))]
      have := Nat.mod_lt n (show 0 < 10 by decide)
      omega
    have hcons : ∀ c ∈ Nat.digitChar (n % 10) :: ds, 48 ≤ c.toNat ∧ c.toNat ≤ 57 := by
      intro c hc
      rcases List.mem_cons.mp hc with hc | hc
      · rw [hc]; exact hd
      · exact h c hc
    unfold Nat.toDigitsCore
    simp only
    split
    · exact hcons
    · exact ih _ _ hcons

theorem toDigitsCore_ne_nil (fuel n : Nat) (c : Char) (ds : List Char) :
    Nat.toDigitsCore 10 fuel n (c :: ds) ≠ [] := by
  intro h
  have := Nat.toDigitsCore_lens_eq 10 fuel n c ds
  rw [h] at this
  simp at this

theorem toDigitsCore_value (fuel : Nat) :
    ∀ (n : Nat) (ds : List Char), n < fuel →
      ((Nat.toDigitsCore 10 fuel n ds).map Char.toNat).foldl (fun n c => 10 * n + (c - 48)) 0
        = (ds.map Char.toNat).foldl (fun n c => 10 * n + (c - 48)) n := by
  induction fuel with
  | zero => intro n ds h; omega
  | succ f ih =>
    intro n ds h
    have hd := digitChar_toNat (n % 10) (Nat.mod_lt _ (by decide))
    unfold Nat.toDigitsCore
    simp only
    split
    · rename_i h0
      have hn : n % 10 = n := by omega
      simp only [List.map_cons, List.foldl_cons, hd]
      congr 1
      omega
    · rename_i h0
      rw [ih (n / 10) _ (by omega)]
      simp only [List.map_cons, List.foldl_cons, hd]
      congr 1
      omega

theorem Itoa_nat (n : Nat) :
    isDecimal (Itoa (n : Int)) ∧ digitsValue (Itoa (n : Int)) = n := by
  show isDecimal (lit (Nat.repr n)) ∧ digitsValue (lit (Nat.repr n)) = n
  rw [lit_repr]
  refine ⟨⟨?_, ?_⟩, ?_⟩
  · intro h
    have h2 : Nat.toDigits 10 n = [] := List.map_eq_nil_iff.mp h
    unfold Nat.toDigits Nat.toDigitsCore at h2
    simp only at h2
    split at h2
    · cases h2
    · exact toDigitsCore_ne_nil _ _ _ _ h2
  · intro d hd
    obtain ⟨c, hc, rfl⟩ := List.mem_map.mp hd
    exact toDigitsCore_digits _ _ _ (by simp) c hc
  · unfold digitsValue Nat.toDigits
    rw [toDigitsCore_value (n + 1) n [] (by omega)]
    rfl

theorem Itoa_no_quote (n : Int) : 34 ∉ Itoa n := by
  cases n with
  | ofNat m =>
    intro h
    have := (Itoa_nat m).1.2 34 h
    omega
  | negSucc m =>
    intro h
    have h2 : 34 ∈ 45 :: lit (Nat.repr (m + 1)) := h
    rcases List.mem_cons.mp h2 with h | h
    · omega
    · have := (Itoa_nat (m + 1)).1.2 34 h
      omega

/-- C15: on the fallback path the keys of the returned record are exactly `level`, `ts`,
`caller`, `msg`; its meta data are empty; and its `ts` is the decimal rendering of the
current Unix time in seconds, without quotes: for a time that is not negative it is a
non-empty string of decimal digits with that value. -/
theorem fallback_record (now : Int) (b : Str) (hne : b ≠ []) (hfb : isObject b = false) :
    ParseJSONByteArray now b = .ok (some (fallbackLog now b), true)
      ∧ (fallbackLog now b).map Prod.fst = [lit "level", lit "ts", lit "caller", lit "msg"]
      ∧ (fallbackLog now b).GetMeta = []
      ∧ (fallbackLog now b).GetTimestamp = Itoa now
      ∧ 34 ∉ Itoa now
      ∧ (∀ n : Nat, now = (n : Int) → isDecimal (Itoa now) ∧ digitsValue (Itoa now) = n) := by
  refine ⟨parse_of_not_isObject now b hne hfb, ?_, ?_, (fallbackLog_fields now b).2.2.2,
    Itoa_no_quote now, ?_⟩
  · rw [fallbackLog_eq]; rfl
  · rw [fallbackLog_eq]; rfl
  · intro n hn
    rw [hn]
    exact Itoa_nat n

/-- C15, on the line `hello` at the time 1522426145. -/
theorem fallback_record_witness :
    ParseJSONByteArray 1522426145 (lit "hello")
        = .ok (some (fallbackLog 1522426145 (lit "hello")), true)
      ∧ (fallbackLog 1522426145 (lit "hello")).GetTimestamp = lit "1522426145" := by
  have h := fallback_record 1522426145 (lit "hello") (by decide) (by decide)
  exact ⟨h.1, h.2.2.2.1.trans (by decide)⟩

/-- C16: `filterJSON` aborts when the filter requires, with an unset value (a nil
pointer), a key that the meta data of the record hold, and that key comes first in the
iteration over the required keys: the comparison `vp != *vf` dereferences the nil
pointer. So it does on the record with `token` 1234 and the filter that requires `token`
with a nil value. -/
theorem filterJSON_nil_value_panics :
    (∀ (r : parsedLog) (f : LogFilter) (k v : Str) (rest : List (Str × Option Str)),
        parsedLog.get? r.GetMeta k = some v → f.Meta = (k, none) :: rest →
        filterJSON r f = .panic)
      ∧ filterJSON [(lit "token", lit "1234")]
          { Level := [], Timestamp := [], Caller := [], Meta := [(lit "token", none)] }
        = .panic := by
  refine ⟨?_, by decide⟩
  intro r f k v rest hg hm
  simp [filterJSON, hm, metaLoop, hg]

/-- C19: `ParseJSONByteArray` is total: on every byte sequence it returns. The detection
loop returns within its fuel; an iteration of the key/value loop that is entered goes on
at a strictly larger offset, and that loop returns within `byteLength - offset + 1`
iterations; no index or slice it takes is out of range (the model aborts on such an
access, and it does not abort). -/
theorem ParseJSONByteArray_total (now : Int) (b : Str) :
    (∃ r, ParseJSONByteArray now b = .ok r)
      ∧ (∃ s, detect b = .ok s ∧ s.byteLength ≤ b.length)
      ∧ (∀ (bl fuel offset : Nat) (fk : Str) (pl : parsedLog), bl ≤ b.length → offset < bl →
          ∃ offset1 fk1 pl1, offset < offset1
            ∧ kvLoop b bl (fuel + 1) offset fk pl = kvLoop b bl fuel offset1 fk1 pl1)
      ∧ (∀ (bl offset : Nat) (fk : Str) (pl : parsedLog), bl ≤ b.length →
          ∃ pl1, kvLoop b bl (bl - offset + 1) offset fk pl = .ok pl1) := by
  refine ⟨?_, ?_, ?_, ?_⟩
  · by_cases hne : b = []
    · subst hne
      exact ⟨(none, false), rfl⟩
    · cases hobj : isObject b with
      | false => exact ⟨_, parse_of_not_isObject now b hne hobj⟩
      | true =>
        obtain ⟨_, pl, _, _, _, _, _, hp⟩ := parse_of_isObject now b hobj
        exact ⟨_, hp⟩
  · obtain ⟨s, hs, hfin⟩ := detect_final b
    exact ⟨s, hs, hfin.1⟩
  · intro bl fuel offset fk pl hbl hlt
    have hlen : offset < b.length := by omega
    have hs : ¬ b.length < offset + 1 := by omega
    rw [kvLoop]
    simp only [hlt, if_true, List.getElem?_eq_getElem hlen, hs, if_false]
    split
    · exact ⟨_, _, _, by omega, rfl⟩
    · split
      · exact ⟨_, _, _, by omega, rfl⟩
      · exact ⟨_, _, _, by omega, rfl⟩
  · intro bl offset fk pl hbl
    exact kvLoop_returns b bl hbl _ offset fk pl (by omega)

/-- C19, on the line `{"a":1`, which has no closing brace. -/
theorem ParseJSONByteArray_total_witness :
    ∃ pl1, kvLoop (lit "\x7b\"a\":1") 6 (6 - 0 + 1) 0 [] [] = .ok pl1 :=
  (ParseJSONByteArray_total 0 (lit "\x7b\"a\":1")).2.2.2 6 0 [] [] (by decide)

/-- C20: on the line `}{` the detection loop finds both braces in its second iteration,
when the two scan positions have already crossed: the opening brace at index 1 and the
closing brace at index 0. The line is taken for an object, and the record is the empty
record, not the fallback record. -/
theorem crossed_braces_is_object :
    detect (lit "\x7d\x7b")
        = .ok { hasStart := true, hasEnd := true, offset := 1, byteLength := 0 }
      ∧ isObject (lit "\x7d\x7b") = true
      ∧ ParseJSONByteArray 0 (lit "\x7d\x7b") = .ok (some [], true) := by
  decide

/-- C21: the flat scan tracks neither quotes nor depth in a value. On the line
`{"msg":"hello, world","k":"v"}` the value stored for `msg` is the raw text between the
`:` and the first comma, `"hello` with its opening quote and without a closing one, and
the later pair `k` is not in the returned record, whose only key is `msg`. -/
theorem comma_in_value_cuts (now : Int) :
    ParseJSONByteArray now (lit "\x7b\"msg\":\"hello, world\",\"k\":\"v\"\x7d")
        = .ok (some [(lit "msg", lit "\"hello")], true)
      ∧ parsedLog.get? [(lit "msg", lit "\"hello")] (lit "msg") = some (lit "\"hello")
      ∧ parsedLog.get? [(lit "msg", lit "\"hello")] (lit "k") = none
      ∧ findValue (lit "\"hello, world\",\"k\":\"v\"\x7d") = (lit "\"hello", 6) := by
  exact ⟨rfl, by decide, by decide, by decide⟩

/-! ## Keys and the first quote -/

theorem findKeyLoop_none (data : Str) (h : 34 ∉ data) :
    ∀ (acc : Str) (i : Nat), findKeyLoop acc i data = ([], 0) := by
  induction data with
  | nil => intro acc i; rfl
  | cons b data ih =>
    intro acc i
    have hb : b ≠ 34 := fun e => h (by simp [e])
    have h2 : 34 ∉ data := fun e => h (by simp [e])
    rw [findKeyLoop, if_neg hb, ih h2]

/-- C22, as stated, fails on the data `a\"b":1}` (as in the line `{"a\"b":1}`): `findKey`
returns `a\`, the bytes before the first `"`, which is the one behind the backslash,
and not `a\"b`, the bytes up to the first `"` that no backslash precedes; the line is
parsed into the empty record. -/
theorem escaped_quote_ends_key :
    findKey (lit "a\\\"b\":1\x7d") = (lit "a\\", 2)
      ∧ upToUnescapedQuote 0 (lit "a\\\"b\":1\x7d") = lit "a\\\"b"
      ∧ (findKey (lit "a\\\"b\":1\x7d")).1 ≠ upToUnescapedQuote 0 (lit "a\\\"b\":1\x7d")
      ∧ ParseJSONByteArray 0 (lit "\x7b\"a\\\"b\":1\x7d") = .ok (some [], true) := by
  decide

/-- C22, amended: `findKey` returns the run of bytes up to the first `"` of the data,
whether a backslash precedes that `"` or not, together with the index of that `"`; it
returns the empty string and 0 when the data hold no `"`. So a `"` behind a backslash
does end the key, and the backslash is the last byte of the key; the key scan of
`ParseJSONByteArray` goes on behind that `"`. -/
theorem findKey_first_quote (k rest : Str) (hk : 34 ∉ k) :
    findKey (k ++ 34 :: rest) = (k, k.length)
      ∧ findKey (k ++ [92] ++ 34 :: rest) = (k ++ [92], k.length + 1)
      ∧ findKey k = ([], 0)
      ∧ (∀ (pre : Str) (bl fuel : Nat) (foundKey : Str) (pl : parsedLog), pre.length < bl →
          kvLoop (pre ++ 34 :: (k ++ 34 :: rest)) bl (fuel + 1) pre.length foundKey pl
            = kvLoop (pre ++ 34 :: (k ++ 34 :: rest)) bl fuel (pre.length + k.length + 2)
                (TrimSpace k) pl) := by
  refine ⟨findKey_append k rest hk, ?_, findKeyLoop_none k hk [] 0, ?_⟩
  · have h2 : 34 ∉ k ++ [92] := by
      intro h
      rcases List.mem_append.mp h with h | h
      · exact hk h
      · simp at h
    have := findKey_append (k ++ [92]) rest h2
    simpa using this
  · intro pre bl fuel foundKey pl hlt
    exact kvLoop_key_step pre k rest hk bl fuel foundKey pl hlt

/-- C22, amended, on the data `a\"b"`: the key is `a\`. -/
theorem findKey_first_quote_witness :
    findKey (lit "a" ++ [92] ++ 34 :: lit "b\"") = (lit "a" ++ [92], (lit "a").length + 1) :=
  (findKey_first_quote (lit "a") (lit "b\"") (by decide)).2.1

/-! ## The level criterion -/

theorem filter_quoted (m : Str) (hm : 34 ∉ m) :
    ([34] ++ m ++ [34]).filter (fun c => c != 34) = m := by
  have h1 : m.filter (fun c => c != 34) = m := by
    rw [List.filter_eq_self]
    intro a ha
    have : a ≠ 34 := fun e => hm (e ▸ ha)
    simpa using this
  simp [List.filter_append, h1]

theorem stripOuterQuotes_quoted (m : Str) : stripOuterQuotes ([34] ++ m ++ [34]) = m := by
  simp [stripOuterQuotes]

/-- The verdict of a filter that has a level criterion only. -/
theorem filterJSON_level_only (r : parsedLog) (f : LogFilter) (hlevel : f.Level ≠ [])
    (hc : f.Caller = []) (ht : f.Timestamp = []) (hm : f.Meta = []) :
    filterJSON r f = .ok (decide (r.GetLevel.filter (fun c => c != 34) = f.Level)) := by
  unfold filterJSON
  rw [hm, Replace_quote]
  by_cases h : r.GetLevel.filter (fun c => c != 34) = f.Level
  · simp [metaLoop, h, hc, ht]
  · simp [metaLoop, h, hlevel]

/-- C23, as stated, fails on the record with the level `"de"bug"` and the criterion
`debug`: the filter accepts the record, although the level without its leading and its
trailing quote is `de"bug`, which is not the criterion. -/
theorem interior_quote_deleted :
    filterJSON [(lit "level", lit "\"de\"bug\"")]
        { Level := lit "debug", Timestamp := [], Caller := [], Meta := [] } = .ok true
      ∧ stripOuterQuotes (parsedLog.GetLevel [(lit "level", lit "\"de\"bug\"")]) = lit "de\"bug"
      ∧ stripOuterQuotes (parsedLog.GetLevel [(lit "level", lit "\"de\"bug\"")]) ≠ lit "debug" := by
  decide

/-- C23, amended: with a non-empty level criterion and no other criterion, `filterJSON`
accepts exactly when the level of the record with every quote character removed, the
ones in its interior too, equals the criterion. For a level whose only quote characters
are one leading and one trailing `"`, this is the level without these two. -/
theorem level_criterion (r : parsedLog) (f : LogFilter) (hlevel : f.Level ≠ [])
    (hc : f.Caller = []) (ht : f.Timestamp = []) (hm : f.Meta = []) :
    filterJSON r f = .ok (decide (r.GetLevel.filter (fun c => c != 34) = f.Level))
      ∧ (∀ m, 34 ∉ m → r.GetLevel = [34] ++ m ++ [34] →
          r.GetLevel.filter (fun c => c != 34) = m ∧ stripOuterQuotes r.GetLevel = m) := by
  refine ⟨filterJSON_level_only r f hlevel hc ht hm, ?_⟩
  intro m hq hl
  rw [hl]
  exact ⟨filter_quoted m hq, stripOuterQuotes_quoted m⟩

/-- C23, amended, on the record with the level `"debug"` and the criterion `debug`. -/
theorem level_criterion_witness :
    filterJSON [(lit "level", lit "\"debug\"")]
        { Level := lit "debug", Timestamp := [], Caller := [], Meta := [] }
      = .ok (decide ((parsedLog.GetLevel [(lit "level", lit "\"debug\"")]).filter
          (fun c => c != 34) = lit "debug")) :=
  (level_criterion [(lit "level", lit "\"debug\"")]
    { Level := lit "debug", Timestamp := [], Caller := [], Meta := [] }
    (by decide) rfl rfl rfl).1

/-! ## The timestamp criterion on numerals of equal length -/

theorem digitsValue_append (a b : Str) :
    digitsValue (a ++ b) = digitsValue a * 10 ^ b.length + digitsValue b := by
  show (a ++ b).foldl _ 0 = _
  rw [List.foldl_append, digits_foldl b]
  rfl

theorem digitsValue_lt_pow (s : Str) (h : isDigits s) : digitsValue s < 10 ^ s.length := by
  induction s with
  | nil => simp [digitsValue]
  | cons c s ih =>
    have hc := h c (by simp)
    have hs : isDigits s := fun d hd => h d (List.mem_cons_of_mem _ hd)
    have := ih hs
    rw [digitsValue_cons, List.length_cons, pow_succ]
    have h9 : (c - 48) * 10 ^ s.length ≤ 9 * 10 ^ s.length :=
      Nat.mul_le_mul_right _ (by omega)
    omega

theorem strLess_digits (x : Str) :
    ∀ y : Str, x.length = y.length → isDigits x → isDigits y →
      (strLess x y = true ↔ digitsValue x < digitsValue y) := by
  induction x with
  | nil =>
    intro y hl _ _
    cases y with
    | nil => simp [strLess, digitsValue]
    | cons b y => simp at hl
  | cons a x ih =>
    intro y hl hx hy
    cases y with
    | nil => simp at hl
    | cons b y =>
      have hlen : x.length = y.length := by simpa using hl
      have ha := hx a (by simp)
      have hb := hy b (by simp)
      have hxs : isDigits x := fun d hd => hx d (List.mem_cons_of_mem _ hd)
      have hys : isDigits y := fun d hd => hy d (List.mem_cons_of_mem _ hd)
      have bx := digitsValue_lt_pow x hxs
      have by1 := digitsValue_lt_pow y hys
      rw [hlen] at bx
      rw [digitsValue_cons, digitsValue_cons, hlen]
      unfold strLess
      by_cases h1 : a < b
      · have hm : (a - 48 + 1) * 10 ^ y.length ≤ (b - 48) * 10 ^ y.length :=
          Nat.mul_le_mul_right _ (by omega)
        rw [Nat.add_mul, Nat.one_mul] at hm
        simp only [h1, if_true, true_iff]
        omega
      · by_cases h2 : b < a
        · have hm : (b - 48 + 1) * 10 ^ y.length ≤ (a - 48) * 10 ^ y.length :=
            Nat.mul_le_mul_right _ (by omega)
          rw [Nat.add_mul, Nat.one_mul] at hm
          simp only [h1, h2, if_false, if_true, Bool.false_eq_true, false_iff]
          omega
        · have hab : a = b := by omega
          subst hab
          simp only [h1, if_false, ih y hlen hxs hys]
          omega

theorem strLess_dot (p : Nat) (a : Str) :
    ∀ (c b d : Str), a.length = c.length →
      strLess (a ++ [p] ++ b) (c ++ [p] ++ d) = strLess (a ++ b) (c ++ d) := by
  induction a with
  | nil =>
    intro c b d hl
    cases c with
    | nil => simp [strLess]
    | cons c0 c => simp at hl
  | cons a0 a ih =>
    intro c b d hl
    cases c with
    | nil => simp at hl
    | cons c0 c =>
      have hlen : a.length = c.length := by simpa using hl
      have := ih c b d hlen
      simp only [List.cons_append, strLess, List.append_eq]
      rw [this]

theorem decimalValue_eq (a b : Str) :
    decimalValue a b = (digitsValue (a ++ b) : ℚ) / 10 ^ b.length := by
  unfold decimalValue
  rw [digitsValue_append]
  push_cast
  field_simp

theorem decimalValue_le (a b c d : Str) (h : b.length = d.length) :
    decimalValue c d ≤ decimalValue a b ↔ digitsValue (c ++ d) ≤ digitsValue (a ++ b) := by
  rw [decimalValue_eq, decimalValue_eq, h]
  have hpos : (0 : ℚ) < 10 ^ d.length := by positivity
  rw [div_le_div_iff_of_pos_right hpos]
  exact Nat.cast_le

theorem isDigits_append (a b : Str) (ha : isDigits a) (hb : isDigits b) : isDigits (a ++ b) := by
  intro d hd
  rcases List.mem_append.mp hd with h | h
  · exact ha d h
  · exact hb d h

/-- The verdict of a filter that has a timestamp criterion only. -/
theorem filterJSON_timestamp_only (r : parsedLog) (f : LogFilter) (hl : f.Level = [])
    (hc : f.Caller = []) (hm : f.Meta = []) :
    filterJSON r f
      = .ok (if f.Timestamp ≠ [] ∧ strLess r.GetTimestamp f.Timestamp = true then false
          else true) := by
  unfold filterJSON
  rw [hm]
  simp [metaLoop, hl, hc]

/-- C24: with no other criterion, the timestamp bound agrees with the comparison of
numbers on numerals of equal length. When the timestamp of the record and the bound are
strings of decimal digits of the same length, `filterJSON` accepts exactly when the
number of the timestamp is at least the number of the bound; likewise when both have the
form `a.b` with digits only, the same number of digits before the `.` and the same
number behind it. -/
theorem timestamp_bound_numeric (r : parsedLog) (f : LogFilter) (hl : f.Level = [])
    (hc : f.Caller = []) (hm : f.Meta = []) :
    (isDigits r.GetTimestamp → isDigits f.Timestamp →
        r.GetTimestamp.length = f.Timestamp.length →
        ∃ v, filterJSON r f = .ok v
          ∧ (v = true ↔ digitsValue f.Timestamp ≤ digitsValue r.GetTimestamp))
      ∧ (∀ a b c d : Str, r.GetTimestamp = a ++ [46] ++ b → f.Timestamp = c ++ [46] ++ d →
          isDigits a → isDigits b → isDigits c → isDigits d →
          a.length = c.length → b.length = d.length →
          ∃ v, filterJSON r f = .ok v ∧ (v = true ↔ decimalValue c d ≤ decimalValue a b)) := by
  refine ⟨?_, ?_⟩
  · intro hts hbd hlen
    refine ⟨_, filterJSON_timestamp_only r f hl hc hm, ?_⟩
    have h := strLess_digits r.GetTimestamp f.Timestamp hlen hts hbd
    by_cases hlt : strLess r.GetTimestamp f.Timestamp = true
    · have hne : f.Timestamp ≠ [] := by
        intro he
        rw [he] at hlt
        cases hr : r.GetTimestamp with
        | nil => rw [hr] at hlt; simp [strLess] at hlt
        | cons x xs => rw [hr] at hlt; simp [strLess] at hlt
      have hv := h.mp hlt
      simp only [hne, hlt, ne_eq, not_false_eq_true, and_self, if_true, Bool.false_eq_true,
        false_iff]
      omega
    · have hge : ¬ digitsValue r.GetTimestamp < digitsValue f.Timestamp := fun hv => hlt (h.mpr hv)
      simp only [hlt, Bool.false_eq_true, and_false, if_false, eq_self_iff_true, true_iff]
      omega
  · intro a b c d hts hbd ha hb hcd hd hlen1 hlen2
    refine ⟨_, filterJSON_timestamp_only r f hl hc hm, ?_⟩
    have hne : f.Timestamp ≠ [] := by rw [hbd]; simp
    have hlen : (a ++ b).length = (c ++ d).length := by
      simp only [List.length_append]; omega
    have h := strLess_digits (a ++ b) (c ++ d) hlen (isDigits_append a b ha hb)
      (isDigits_append c d hcd hd)
    rw [decimalValue_le a b c d hlen2, hts, hbd, strLess_dot 46 a c b d hlen1]
    rw [← hbd]
    by_cases hlt : strLess (a ++ b) (c ++ d) = true
    · have := h.mp hlt
      simp only [hne, hlt, ne_eq, not_false_eq_true, and_self, if_true, Bool.false_eq_true,
        false_iff]
      omega
    · have hge : ¬ digitsValue (a ++ b) < digitsValue (c ++ d) := fun hv => hlt (h.mpr hv)
      simp only [hlt, Bool.false_eq_true, and_false, if_false, eq_self_iff_true, true_iff]
      omega

/-- C24, on the timestamp `1234567.8901220` and the bound `1234567.8901234`. -/
theorem timestamp_bound_numeric_witness :
    ∃ v, filterJSON [(lit "ts", lit "1234567.8901220")]
        { Level := [], Timestamp := lit "1234567.8901234", Caller := [], Meta := [] } = .ok v
      ∧ (v = true ↔ decimalValue (lit "1234567") (lit "8901234")
          ≤ decimalValue (lit "1234567") (lit "8901220")) :=
  (timestamp_bound_numeric [(lit "ts", lit "1234567.8901220")]
    { Level := [], Timestamp := lit "1234567.8901234", Caller := [], Meta := [] }
    rfl rfl rfl).2 (lit "1234567") (lit "8901220") (lit "1234567") (lit "8901234")
    (by decide) (by decide) (by unfold isDigits; decide) (by unfold isDigits; decide)
    (by unfold isDigits; decide) (by unfold isDigits; decide) (by decide) (by decide)

/-! ## Verdicts that cannot be `true` -/

theorem metaLoop_false (pMeta : parsedLog) (ms : List (Str × Option Str)) :
    metaLoop pMeta false ms ≠ .ok true
      ∧ ((∀ p ∈ ms, p.2 ≠ none) → metaLoop pMeta false ms = .ok false) := by
  induction ms with
  | nil => exact ⟨by simp [metaLoop], fun _ => rfl⟩
  | cons m ms ih =>
    obtain ⟨kf, vf⟩ := m
    unfold metaLoop
    cases hg : parsedLog.get? pMeta kf with
    | none => exact ⟨by simp, fun _ => rfl⟩
    | some vp =>
      cases vf with
      | none => exact ⟨by simp, fun h => absurd rfl (h (kf, none) (by simp))⟩
      | some v =>
        by_cases hv : vp = v
        · simp only [hv, ne_eq, not_true_eq_false, if_false]
          exact ⟨ih.1, fun h => ih.2 (fun p hp => h p (List.mem_cons_of_mem _ hp))⟩
        · simp [hv]

theorem metaLoop_wellKnown (r : parsedLog) (pp : Bool) (k : Str) (v : Option Str)
    (hk : k ∈ wellKnown) (ms : List (Str × Option Str)) (hmem : (k, v) ∈ ms) :
    metaLoop r.GetMeta pp ms ≠ .ok true
      ∧ ((∀ p ∈ ms, p.2 ≠ none) → metaLoop r.GetMeta pp ms = .ok false) := by
  induction ms with
  | nil => simp at hmem
  | cons m ms ih =>
    obtain ⟨kf, vf⟩ := m
    unfold metaLoop
    cases hg : parsedLog.get? r.GetMeta kf with
    | none => exact ⟨by simp, fun _ => rfl⟩
    | some vp =>
      have hne : (k, v) ≠ (kf, vf) := by
        intro e
        cases e
        rw [GetMeta_get?, if_pos hk] at hg
        cases hg
      have hm2 : (k, v) ∈ ms := by
        rcases List.mem_cons.mp hmem with h | h
        · exact absurd h hne
        · exact h
      cases vf with
      | none => exact ⟨by simp, fun h => absurd rfl (h (kf, none) (by simp))⟩
      | some v1 =>
        by_cases hv : vp = v1
        · simp only [hv, ne_eq, not_true_eq_false, if_false]
          exact ⟨(ih hm2).1, fun h => (ih hm2).2 (fun p hp => h p (List.mem_cons_of_mem _ hp))⟩
        · simp [hv]

theorem strLess_nil (bound : Str) (h : bound ≠ []) : strLess [] bound = true := by
  cases bound with
  | nil => exact absurd rfl h
  | cons b bs => rfl

theorem Contains_nil (substr : Str) (h : substr ≠ []) : Contains [] substr = false := by
  cases substr with
  | nil => exact absurd rfl h
  | cons b bs => rfl

/-- What holds of every filter whose `Meta` requires one of the field names `level`,
`ts`, `caller`, `msg`, `message`: it accepts no record, whatever the record holds for
that field, because the required keys are looked up in the meta data, which exclude
these names. The call returns `false` whenever every required value is set; with an
unset value it can abort at the dereference instead. -/
theorem wellKnown_key_rejects (r : parsedLog) (f : LogFilter) (k : Str) (v : Option Str)
    (hk : k = lit "level" ∨ k = lit "ts" ∨ k = lit "caller" ∨ k = lit "msg"
      ∨ k = lit "message")
    (hreq : (k, v) ∈ f.Meta) :
    ((∀ p ∈ f.Meta, p.2 ≠ none) → filterJSON r f = .ok false)
      ∧ filterJSON r f ≠ .ok true
      ∧ parsedLog.get? r.GetMeta k = none := by
  have hwk : k ∈ wellKnown := by
    simp only [wellKnown, List.mem_cons, List.mem_singleton, List.not_mem_nil, or_false]
    exact hk
  have h := metaLoop_wellKnown r
    (if f.Level ≠ [] ∧ Replace r.GetLevel (lit "\"") [] ≠ f.Level then false
      else if f.Caller ≠ [] ∧ ¬ (Contains r.GetCaller f.Caller = true) then false
      else if f.Timestamp ≠ [] ∧ strLess r.GetTimestamp f.Timestamp = true then false
      else true) k v hwk f.Meta hreq
  exact ⟨h.2, h.1, by rw [GetMeta_get?, if_pos hwk]⟩

/-- On the record with level `"info"` and the filter that requires `level` to be
`"info"`, the record is rejected. -/
theorem wellKnown_key_rejects_witness :
    filterJSON [(lit "level", lit "\"info\"")]
        { Level := [], Timestamp := [], Caller := [],
          Meta := [(lit "level", some (lit "\"info\""))] } = .ok false :=
  (wellKnown_key_rejects [(lit "level", lit "\"info\"")]
    { Level := [], Timestamp := [], Caller := [],
      Meta := [(lit "level", some (lit "\"info\""))] } (lit "level") (some (lit "\"info\""))
    (Or.inl rfl) (by decide)).1 (by decide)

/-- What holds of every filter with a non-empty timestamp bound and every record without
a `ts` field, and of every filter with a non-empty caller criterion and every record
without a `caller` field: the record is not accepted, because the absent field reads as
the empty string, which is below every non-empty string and contains no non-empty
string. The call returns `false` whenever every required meta value is set; with an
unset value it can abort at the dereference instead. -/
theorem absent_field_rejects (r : parsedLog) (f : LogFilter) :
    (f.Timestamp ≠ [] → parsedLog.get? r (lit "ts") = none →
        ((∀ p ∈ f.Meta, p.2 ≠ none) → filterJSON r f = .ok false)
          ∧ filterJSON r f ≠ .ok true
          ∧ r.GetTimestamp = [] ∧ strLess r.GetTimestamp f.Timestamp = true)
      ∧ (f.Caller ≠ [] → parsedLog.get? r (lit "caller") = none →
        ((∀ p ∈ f.Meta, p.2 ≠ none) → filterJSON r f = .ok false)
          ∧ filterJSON r f ≠ .ok true
          ∧ r.GetCaller = [] ∧ Contains r.GetCaller f.Caller = false) := by
  refine ⟨?_, ?_⟩
  · intro hne habs
    have hts : r.GetTimestamp = [] := by simp [parsedLog.GetTimestamp, parsedLog.get, habs]
    have hlt : strLess r.GetTimestamp f.Timestamp = true := by
      rw [hts]; exact strLess_nil _ hne
    have hpp : (if f.Level ≠ [] ∧ Replace r.GetLevel (lit "\"") [] ≠ f.Level then false
        else if f.Caller ≠ [] ∧ ¬ (Contains r.GetCaller f.Caller = true) then false
        else if f.Timestamp ≠ [] ∧ strLess r.GetTimestamp f.Timestamp = true then false
        else true) = false := by
      simp [hne, hlt]
    have h := metaLoop_false r.GetMeta f.Meta
    unfold filterJSON
    simp only [hpp]
    exact ⟨h.2, h.1, hts, hlt⟩
  · intro hne habs
    have hc : r.GetCaller = [] := by simp [parsedLog.GetCaller, parsedLog.get, habs]
    have hcon : Contains r.GetCaller f.Caller = false := by
      rw [hc]; exact Contains_nil _ hne
    have hpp : (if f.Level ≠ [] ∧ Replace r.GetLevel (lit "\"") [] ≠ f.Level then false
        else if f.Caller ≠ [] ∧ ¬ (Contains r.GetCaller f.Caller = true) then false
        else if f.Timestamp ≠ [] ∧ strLess r.GetTimestamp f.Timestamp = true then false
        else true) = false := by
      simp [hne, hcon]
    have h := metaLoop_false r.GetMeta f.Meta
    unfold filterJSON
    simp only [hpp]
    exact ⟨h.2, h.1, hc, hcon⟩

/-- On the record with only a message and the filter with the timestamp bound `1`, the
record is rejected. -/
theorem absent_field_rejects_witness :
    filterJSON [(lit "msg", lit "\"hi\"")]
        { Level := [], Timestamp := lit "1", Caller := [], Meta := [] } = .ok false :=
  ((absent_field_rejects [(lit "msg", lit "\"hi\"")]
    { Level := [], Timestamp := lit "1", Caller := [], Meta := [] }).1
    (by decide) (by decide)).1 (by decide)

/-- C25: on the record with `level` `"info"` and `token` 1, the filter whose `Meta`
requires `token` with an unset value (a nil pointer) and `level` with the value `"info"`
aborts when the iteration over `Meta` visits `token` first: the comparison `vp != *vf`
dereferences the nil pointer before the required `level` is looked up. The record is not
rejected with `false`, as it is when the iteration visits `level` first. -/
theorem wellKnown_key_nil_aborts :
    filterJSON [(lit "level", lit "\"info\""), (lit "token", lit "1")]
        { Level := [], Timestamp := [], Caller := [],
          Meta := [(lit "token", none), (lit "level", some (lit "\"info\""))] } = .panic
      ∧ filterJSON [(lit "level", lit "\"info\""), (lit "token", lit "1")]
        { Level := [], Timestamp := [], Caller := [],
          Meta := [(lit "level", some (lit "\"info\"")), (lit "token", none)] } = .ok false := by
  decide

/-- C26: on the record with `token` 1 and no `ts` field, the filter with the timestamp
bound `1` whose `Meta` requires `token` with an unset value (a nil pointer) aborts: the
absent timestamp has set the verdict to `false`, but the loop over `Meta` still runs and
dereferences the nil pointer. So does, on the same record, which has no `caller` field
either, the filter with the caller criterion `main` and the same `Meta`. The record is
not rejected with `false`. -/
theorem absent_field_nil_aborts :
    parsedLog.get? [(lit "token", lit "1")] (lit "ts") = none
      ∧ filterJSON [(lit "token", lit "1")]
          { Level := [], Timestamp := lit "1", Caller := [],
            Meta := [(lit "token", none)] } = .panic
      ∧ parsedLog.get? [(lit "token", lit "1")] (lit "caller") = none
      ∧ filterJSON [(lit "token", lit "1")]
          { Level := [], Timestamp := [], Caller := lit "main",
            Meta := [(lit "token", none)] } = .panic := by
  decide

end prettierzap
